import Mathlib

/-!
Verification development for the union-dictionary searcher
(`tkrzw_union_searcher.py`).

The searcher is shallowly embedded:
* Python strings are Lean `String`s; every string operation used by the code
  is implemented here by structural recursion on the character list so that
  concrete instances evaluate inside the kernel.
* Python `dict`s (insertion ordered) are association lists `List (String × _)`
  with `dictGet` / `dictInsert` / `dictAdd`; Python `set`s are `List String`
  with membership.
* Float arithmetic on feature weights is modelled exactly over `ℚ`
  (the feature computations use only `+ * / max`); the cosine-similarity
  score, which takes square roots, is modelled over `ℝ`.
* The storage databases (`body.tkh`, `tran-index.tkh`, ...) are read-only
  association lists bundled in `Store`; the two sorted-keys text files are
  modelled by their opaque `Search` functions, as the spec treats pattern
  search as an external collaborator.
* The best-first queue built with `heapq` is modelled as a list of
  `(-score, num_steps, entry)` triples from which `popMin` removes the
  lexicographically least element, exactly the observable behaviour of a
  binary min-heap: entries of the heap always have pairwise distinct
  `num_steps` fields, so the minimum is unique.
* The `while seeds:` loop of `ExpandEntries` is written with an explicit
  fuel argument; theorem `expand_terminates_lemma` below proves the chosen
  fuel always suffices (the heap empties before the fuel runs out),
  so the fuelled function agrees with the unbounded loop.
-/

/-- Modelled from the spec: `tkrzw_dict.NormalizeWord` (the repository's
normalizer module is not part of the analysed sources).  The spec describes it
as a "deterministic, idempotent canonicalization of a word string to a lookup
key"; it is modelled as character-wise lower-casing, the canonical such map.
All general theorems below are stated for an arbitrary normalizer
`nw : String → String`; this concrete instance is used for witnesses and
counterexamples. -/
def NormalizeWord (s : String) : String := ⟨s.data.map Char.toLower⟩

/-- Python `text.split(",")` (note: splitting the empty string yields `[""]`,
exactly as in Python). -/
def pySplitComma (s : String) : List String := (s.data.splitOn ',').map String.mk

/-- Python `s.find(pat) >= 0`: `pat` occurs in `s` as a contiguous substring
(the empty pattern always occurs). -/
def containsSub (s pat : String) : Bool :=
  s.data.tails.any (fun t => pat.data.isPrefixOf t)

/-- Python slice `l[:c]` including the negative-`c` behaviour
(`l[:-k]` drops the last `k` elements). -/
def pySlice {α : Type} (l : List α) (c : Int) : List α :=
  if 0 ≤ c then l.take c.toNat else l.take (l.length - (-c).toNat)

/-- Python slice `l[c:]` including the negative-`c` behaviour. -/
def pyDrop {α : Type} (l : List α) (c : Int) : List α :=
  if 0 ≤ c then l.drop c.toNat else l.drop (l.length - (-c).toNat)

/-- Python `int()` on an exact rational: truncation toward zero.
(The Python code computes `capacity * 1.2` in binary floating point before
truncating; the model computes it exactly.  None of the verified claims
depends on the rounding of that product.) -/
def pyIntQ (q : ℚ) : Int := if 0 ≤ q then ⌊q⌋ else -⌊-q⌋

/-- Python `int()` on a real value, truncation toward zero. -/
noncomputable def pyIntR (x : ℝ) : Int := if 0 ≤ x then ⌊x⌋ else -⌊-x⌋

/-- Python `d.get(k)` on an insertion-ordered dict modelled as an
association list. -/
def dictGet {α : Type} (d : List (String × α)) (k : String) : Option α :=
  match d with
  | [] => none
  | (k', v) :: rest => if k' = k then some v else dictGet rest k

/-- Python `d[k] = v`: update in place if the key is present (keeping its
position), otherwise append at the end — Python dicts preserve insertion
order. -/
def dictInsert {α : Type} (d : List (String × α)) (k : String) (v : α) :
    List (String × α) :=
  match d with
  | [] => [(k, v)]
  | (k', v') :: rest =>
    if k' = k then (k', v) :: rest else (k', v') :: dictInsert rest k v

/-- Python `collections.defaultdict(float)` update `d[k] += v`. -/
def dictAdd (d : List (String × ℚ)) (k : String) (v : ℚ) : List (String × ℚ) :=
  dictInsert d k ((dictGet d k).getD 0 + v)

/-- Approximation of the `regex` character class `[\p{Han}\p{Katakana}ー]`:
the main Unicode blocks of the Han and Katakana scripts plus the prolonged
sound mark.  (No claim below depends on the exact extent of the class.) -/
def isHanKataChar (c : Char) : Bool :=
  let n := c.toNat
  (0x3400 ≤ n && n ≤ 0x4DBF) || (0x4E00 ≤ n && n ≤ 0x9FFF) ||
  (0xF900 ≤ n && n ≤ 0xFAFF) || (0x20000 ≤ n && n ≤ 0x2FA1F) ||
  (0x30A1 ≤ n && n ≤ 0x30FA) || (0x30FD ≤ n && n ≤ 0x30FF) ||
  (0x31F0 ≤ n && n ≤ 0x31FF) || (0xFF66 ≤ n && n ≤ 0xFF9D) ||
  n = 0x30FC

/-- Does `suf` match the tail of `s` in the sense of the pattern
`([\p{Han}\p{Katakana}ー]{2,})(suf)$`: `s` ends with `suf` and the two
characters immediately before it belong to the bracketed class. -/
def hanKataSuffixOk (s suf : String) : Bool :=
  suf.data.isSuffixOf s.data &&
  (let core := s.data.take (s.data.length - suf.data.length)
   decide (2 ≤ core.length) && (core.drop (core.length - 2)).all isHanKataChar)

/-- Model of `regex.sub(r"([\p{Han}\p{Katakana}ー]{2,})(s₁|s₂|…)$", r"\1", s)`:
since every match is anchored at the end of the string and the replacement
keeps group 1 in place, the substitution simply removes the matched suffix
alternative (when the preceding two characters are Han/Katakana), and leaves
the string unchanged otherwise.  The alternatives are tried in the pattern's
order; the class precondition makes at most one applicable. -/
def stripSuffixes (sufs : List String) (s : String) : String :=
  match sufs.find? (fun suf => hanKataSuffixOk s suf) with
  | some suf => ⟨s.data.take (s.data.length - suf.data.length)⟩
  | none => s

/-- Suffix alternatives of the substitution in `GetFeatures` (line 245). -/
def featTranSuffixes : List String :=
  ["する", "すること", "される", "されること", "をする", "な", "に", "さ"]

/-- Suffix alternatives of the first substitution in `ExpandEntries`
(line 184). -/
def expandTranSuffixes1 : List String :=
  ["する", "すること", "される", "されること", "をする"]

/-- Suffix alternatives of the second substitution in `ExpandEntries`
(line 187). -/
def expandTranSuffixes2 : List String := ["的", "的な", "的に"]

/-- One sense item of a dictionary entry (only the `pos` tag is read by the
searcher; `label` and `text` are carried for completeness). -/
structure Item where
  label : String := ""
  pos : String
  text : String := ""
deriving DecidableEq

/-- A dictionary entry as stored in the body database.  Optional JSON fields
(`related`, `parent`, `child`, `translation`, `cooccurrence`) are `Option`s;
the code reads them with `.get(...)` and treats a missing or empty list the
same way. -/
structure Entry where
  word : String
  probability : Option ℚ := none
  item : List Item := []
  translation : Option (List String) := none
  related : Option (List String) := none
  parent : Option (List String) := none
  child : Option (List String) := none
  cooccurrence : Option (List String) := none
deriving DecidableEq

/-- The read-only storage snapshot behind one `UnionSearcher`: the body and
index hash databases as association lists, and the two sorted-keys text files
represented by their `Search(mode, text, capacity)` functions. -/
structure Store where
  body : List (String × List Entry)
  tranIndex : List (String × List String)
  inflIndex : List (String × List String)
  keysSearch : String → String → Int → List String
  tranKeysSearch : String → String → Int → List String

/-- A storage access issued by a search operation (used to verify which
operations touch storage). -/
inductive StorageCall where
  | body (key : String)
  | tranIndex (key : String)
  | inflIndex (key : String)
  | keySearch (mode text : String) (capacity : Int)
  | tranKeySearch (mode text : String) (capacity : Int)
deriving DecidableEq

/-- `UnionSearcher.SearchBody`: fetch and deserialize the entry list of one
body key (`None` on a miss). -/
def SearchBody (store : Store) (text : String) : Option (List Entry) :=
  dictGet store.body text

/-- `UnionSearcher.SearchTranIndex`: normalize the key and fetch the
tab-separated list of source headwords from the reverse translation index. -/
def SearchTranIndex (nw : String → String) (store : Store) (text : String) :
    List String :=
  (dictGet store.tranIndex (nw text)).getD []

/-- `UnionSearcher.SearchInflections`. -/
def SearchInflections (store : Store) (text : String) : List String :=
  (dictGet store.inflIndex text).getD []

/-- Inner loop of `SearchExact` (lines 84–89): append entries of one body
record, deduplicating globally by the raw headword `entry["word"]` and
stopping once `len(result) >= capacity`. -/
def seInner (capacity : Int) :
    List Entry → List Entry → List String → List Entry × List String
  | [], res, uniq => (res, uniq)
  | e :: es, res, uniq =>
    if (res.length : Int) ≥ capacity then (res, uniq)
    else if e.word ∈ uniq then seInner capacity es res uniq
    else seInner capacity es (res ++ [e]) (e.word :: uniq)

/-- Outer loop of `SearchExact` (lines 78–89), instrumented with the list of
storage calls it issues.  A record whose deserialization is empty is a no-op
in the fold, matching `if not entries: continue`. -/
def seOuter (nw : String → String) (store : Store) (capacity : Int) :
    List String → List Entry → List String → List StorageCall →
    List Entry × List StorageCall
  | [], res, _, calls => (res, calls)
  | w :: ws, res, uniq, calls =>
    if (res.length : Int) ≥ capacity then (res, calls)
    else
      let w' := nw w
      if w' = "" then seOuter nw store capacity ws res uniq calls
      else
        let calls := calls ++ [.body w']
        match SearchBody store w' with
        | none => seOuter nw store capacity ws res uniq calls
        | some entries =>
          let ru := seInner capacity entries res uniq
          seOuter nw store capacity ws ru.1 ru.2 calls

/-- `UnionSearcher.SearchExact` together with the storage calls it issues. -/
def SearchExactT (nw : String → String) (store : Store) (text : String)
    (capacity : Int) : List Entry × List StorageCall :=
  seOuter nw store capacity (pySplitComma text) [] [] []

/-- `UnionSearcher.SearchExact`. -/
def SearchExact (nw : String → String) (store : Store) (text : String)
    (capacity : Int) : List Entry :=
  (SearchExactT nw store text capacity).1

/-- First loop of `SearchExactReverse` (lines 93–100): normalize and
deduplicate the comma-separated query terms. -/
def serPhase1 (nw : String → String) : List String → List String → List String
  | [], jaWords => jaWords
  | w :: ws, jaWords =>
    let w' := nw w
    if w' = "" then serPhase1 nw ws jaWords
    else if w' ∈ jaWords then serPhase1 nw ws jaWords
    else serPhase1 nw ws (jaWords ++ [w'])

/-- Deduplicating extension used for the `en_words` accumulation
(lines 104–107). -/
def dedupAppend : List String → List String → List String
  | acc, [] => acc
  | acc, w :: ws =>
    if w ∈ acc then dedupAppend acc ws else dedupAppend (acc ++ [w]) ws

/-- Second loop of `SearchExactReverse` (lines 103–107): union the reverse
index hits of every query term, deduplicated, logging one reverse-index
lookup per term.  This loop runs whatever the capacity is. -/
def serPhase2 (nw : String → String) (store : Store) :
    List String → List String → List StorageCall →
    List String × List StorageCall
  | [], enWords, calls => (enWords, calls)
  | ja :: jas, enWords, calls =>
    serPhase2 nw store jas (dedupAppend enWords (SearchTranIndex nw store ja))
      (calls ++ [.tranIndex (nw ja)])

/-- Inner loop of `SearchExactReverse` (lines 114–131): deduplicate by raw
headword, keep an entry only if one of its own normalized translations
contains one of the query terms as a substring, decrementing the remaining
capacity per accepted entry. -/
def serInner (nw : String → String) (jaWords : List String) :
    Int → List Entry → List Entry → List String →
    List Entry × List String × Int
  | cap, [], res, uniq => (res, uniq, cap)
  | cap, e :: es, res, uniq =>
    if cap < 1 then (res, uniq, cap)
    else if e.word ∈ uniq then serInner nw jaWords cap es res uniq
    else
      let uniq := e.word :: uniq
      let mtch := (e.translation.getD []).any
        (fun tran => jaWords.any (fun ja => containsSub (nw tran) ja))
      if mtch then serInner nw jaWords (cap - 1) es (res ++ [e]) uniq
      else serInner nw jaWords cap es res uniq

/-- Third loop of `SearchExactReverse` (lines 110–131): look up each candidate
source headword in the body, stopping as soon as the capacity is
exhausted. -/
def serPhase3 (nw : String → String) (store : Store) (jaWords : List String) :
    List String → Int → List Entry → List String → List StorageCall →
    List Entry × List StorageCall
  | [], _, res, _, calls => (res, calls)
  | en :: ens, cap, res, uniq, calls =>
    if cap < 1 then (res, calls)
    else
      let calls := calls ++ [.body en]
      match SearchBody store en with
      | none => serPhase3 nw store jaWords ens cap res uniq calls
      | some entries =>
        let r := serInner nw jaWords cap entries res uniq
        serPhase3 nw store jaWords ens r.2.2 r.1 r.2.1 calls

/-- `UnionSearcher.SearchExactReverse` together with the storage calls it
issues. -/
def SearchExactReverseT (nw : String → String) (store : Store) (text : String)
    (capacity : Int) : List Entry × List StorageCall :=
  let jaWords := serPhase1 nw (pySplitComma text) []
  let p2 := serPhase2 nw store jaWords [] []
  serPhase3 nw store jaWords p2.1 capacity [] [] p2.2

/-- `UnionSearcher.SearchExactReverse`. -/
def SearchExactReverse (nw : String → String) (store : Store) (text : String)
    (capacity : Int) : List Entry :=
  (SearchExactReverseT nw store text capacity).1

/-- A feature vector: an insertion-ordered map from feature token to weight
(`GetFeatures` lines 217–257 builds one, `SearchRelatedWithSeeds` aggregates
them). -/
abbrev Features := List (String × ℚ)

/-- The part-of-speech accumulation of `GetFeatures` (lines 221–229): the
per-tag running scores (`pos_features`) and their maximum (`pos_score_max`),
with the shared decay clock `pos_score` advanced once per sense item. -/
def posAccumAux : List Item → List (String × ℚ) → ℚ → ℚ →
    List (String × ℚ) × ℚ
  | [], pf, pmax, _ => (pf, pmax)
  | it :: rest, pf, pmax, pscore =>
    let pos := "__" ++ it.pos
    let newScore := (dictGet pf pos).getD 0 + pscore
    posAccumAux rest (dictInsert pf pos newScore) (max pmax newScore)
      (pscore * 0.95)

/-- The accumulator of `GetFeatures` over one entry's sense items, started
as in the source with `pos_score = 1.0` and `pos_score_max = 0.0`. -/
def posAccum (items : List Item) : List (String × ℚ) × ℚ :=
  posAccumAux items [] 0 1

/-- One decayed feature pass of `GetFeatures` (the related, translation and
co-occurrence loops, lines 233–256, are all of this shape): for each token,
apply the pass's preprocessing, and if the token is not yet a feature key,
advance the shared decay score by `×0.95` and record it; known tokens are
skipped without consuming a decay step. -/
def featPass (prep : String → String) :
    List String → Features → ℚ → Features × ℚ
  | [], fs, score => (fs, score)
  | t :: ts, fs, score =>
    let t' := prep t
    if (dictGet fs t').isSome then featPass prep ts fs score
    else featPass prep ts (dictInsert fs t' (score * 0.95)) (score * 0.95)

/-- The feature map of `GetFeatures` after lines 219–231: the normalized
headword with weight `1.0`, then each part-of-speech pseudo-token with its
accumulated score divided by the maximum. -/
def baseFeatures (nw : String → String) (entry : Entry) : Features :=
  let pa := posAccum entry.item
  pa.1.foldl (fun fs p => dictInsert fs p.1 (p.2 / pa.2)) [(nw entry.word, 1)]

/-- `UnionSearcher.GetFeatures` (lines 217–257). -/
def GetFeatures (nw : String → String) (entry : Entry) : Features :=
  let f1 := baseFeatures nw entry
  let r1 := featPass (fun w => nw w) ((entry.related.getD []).take 20) f1 1
  let r2 := featPass (fun w => stripSuffixes featTranSuffixes (nw w))
    ((entry.translation.getD []).take 20) r1.1 r1.2
  let r3 := featPass (fun w => nw w)
    ((entry.cooccurrence.getD []).take 20) r2.1 r2.2
  r3.1

/-- The three accumulators of `GetSimilarity` (lines 262–266): dot product,
seed norm, and the candidate norm restricted to the seed vector's keys. -/
def simAccum (sf cf : Features) : ℚ × ℚ × ℚ :=
  sf.foldl (fun acc p =>
    let c := (dictGet cf p.1).getD 0
    (acc.1 + p.2 * c, acc.2.1 + p.2 ^ 2, acc.2.2 + c ^ 2)) (0, 0, 0)

/-- `UnionSearcher.GetSimilarity` (lines 259–270): the asymmetric cosine
ratio, `0.0` when either restricted norm vanishes, capped at `1.0`, and
rounded up to exactly `1.0` from `0.99999`. -/
noncomputable def GetSimilarity (sf cf : Features) : ℝ :=
  let a := simAccum sf cf
  if a.2.2 = 0 ∨ a.2.1 = 0 then 0
  else
    let score : ℝ := min ((a.1 : ℝ) / (Real.sqrt a.2.1 * Real.sqrt a.2.2)) 1
    if 0.99999 ≤ score then 1 else score

/-- An element of the best-first queue of `ExpandEntries`: the tuple
`(-score, num_steps, entry)` pushed at line 142. -/
abbrev HeapElem := ℝ × Nat × Entry

/-- The order in which Python's `heapq` compares two queue tuples: by negated
score first, then by the discovery counter.  The entry component is never
reached because all `num_steps` values in one queue are distinct. -/
def heLE (a b : HeapElem) : Prop :=
  a.1 < b.1 ∨ (a.1 = b.1 ∧ a.2.1 ≤ b.2.1)

open scoped Classical in
/-- `heapq.heappop`: remove the least tuple of the queue (the highest score,
earliest discovery first).  Returns the popped element and the remaining
queue. -/
noncomputable def popMin : List HeapElem → Option (HeapElem × List HeapElem)
  | [] => none
  | x :: xs =>
    match popMin xs with
    | none => some (x, [])
    | some (m, rest) => if heLE x m then some (x, xs) else some (m, x :: rest)

/-- The mutable state of one `ExpandEntries` call: the output list, the
priority queue, the discovery counter `num_steps`, and the two visited
sets. -/
structure EState where
  result : List Entry
  seeds : List HeapElem
  numSteps : Nat
  checkedWords : List String
  checkedTrans : List String

/-- `AddSeed` (lines 138–143): score the entry's feature vector against the
aggregated seed features and push `(-score, num_steps, entry)`, incrementing
the discovery counter. -/
noncomputable def addSeed (nw : String → String) (sf : Features)
    (st : EState) (entry : Entry) : EState :=
  let features := GetFeatures nw entry
  let score := GetSimilarity sf features
  { st with seeds := st.seeds ++ [(-score, st.numSteps, entry)],
            numSteps := st.numSteps + 1 }

/-- The seeding loop of `ExpandEntries` (lines 146–150): deduplicate the seed
entries by raw headword, mark each visited, and push it.  Note this loop is
not bounded by the capacity. -/
noncomputable def seedPhase (nw : String → String) (sf : Features) :
    List Entry → EState → EState
  | [], st => st
  | e :: es, st =>
    if e.word ∈ st.checkedWords then seedPhase nw sf es st
    else seedPhase nw sf es
      (addSeed nw sf { st with checkedWords := e.word :: st.checkedWords } e)

/-- The child loop shared by the relation fan-out (lines 172–178) and the
co-occurrence fan-out (lines 208–214): push every fetched entry whose
headword is unvisited, while the visited set stays below capacity. -/
noncomputable def relChildLoop (nw : String → String) (sf : Features)
    (capacity : Int) :
    List Entry → EState → Nat → EState × Nat
  | [], st, na => (st, na)
  | c :: cs, st, na =>
    if (st.checkedWords.length : Int) ≥ capacity then (st, na)
    else if c.word ∈ st.checkedWords then relChildLoop nw sf capacity cs st na
    else relChildLoop nw sf capacity cs
      (addSeed nw sf { st with checkedWords := c.word :: st.checkedWords } c)
      (na + 1)

/-- The relation fan-out (lines 169–178): for each merged related word, fetch
exact matches bounded by the remaining capacity and push the new ones. -/
noncomputable def relLoop (nw : String → String) (store : Store)
    (sf : Features) (capacity : Int) :
    List String → EState → Nat → EState × Nat
  | [], st, na => (st, na)
  | rw :: rws, st, na =>
    if (st.checkedWords.length : Int) ≥ capacity then (st, na)
    else if rw ∈ st.checkedWords then relLoop nw store sf capacity rws st na
    else
      let children :=
        SearchExact nw store rw (capacity - st.checkedWords.length)
      let r := relChildLoop nw sf capacity children st na
      relLoop nw store sf capacity rws r.1 r.2

/-- The per-translation child loop (lines 193–201): accept at most 5
confirmed candidates per translation. -/
noncomputable def tranChildLoop (nw : String → String) (sf : Features)
    (capacity : Int) :
    List Entry → EState → Nat → Nat → EState × Nat
  | [], st, na, _ => (st, na)
  | c :: cs, st, na, nta =>
    if (st.checkedWords.length : Int) ≥ capacity then (st, na)
    else if nta ≥ 5 then (st, na)
    else if c.word ∈ st.checkedWords then
      tranChildLoop nw sf capacity cs st na nta
    else tranChildLoop nw sf capacity cs
      (addSeed nw sf { st with checkedWords := c.word :: st.checkedWords } c)
      (na + 1) (nta + 1)

/-- The translation fan-out (lines 181–201): strip the derivational suffixes,
skip translations already processed in this expansion, and reverse-look-up at
most `min(remaining, 10)` candidates. -/
noncomputable def tranLoop (nw : String → String) (store : Store)
    (sf : Features) (capacity : Int) :
    List String → EState → Nat → EState × Nat
  | [], st, na => (st, na)
  | tr :: trs, st, na =>
    if (st.checkedWords.length : Int) ≥ capacity then (st, na)
    else
      let tr' := stripSuffixes expandTranSuffixes2
        (stripSuffixes expandTranSuffixes1 tr)
      if tr' ∈ st.checkedTrans then tranLoop nw store sf capacity trs st na
      else
        let st := { st with checkedTrans := tr' :: st.checkedTrans }
        let maxChildren := min (capacity - st.checkedWords.length) 10
        let children := SearchExactReverse nw store tr' maxChildren
        let r := tranChildLoop nw sf capacity children st na 0
        tranLoop nw store sf capacity trs r.1 r.2

/-- The co-occurrence fan-out (lines 202–214): bounded by 8 accepted
neighbours per pop (counted across all three fan-outs). -/
noncomputable def coocLoop (nw : String → String) (store : Store)
    (sf : Features) (capacity : Int) :
    List String → EState → Nat → EState × Nat
  | [], st, na => (st, na)
  | co :: cos, st, na =>
    if na ≥ 8 then (st, na)
    else if (st.checkedWords.length : Int) ≥ capacity then (st, na)
    else if co ∈ st.checkedWords then coocLoop nw store sf capacity cos st na
    else
      let children :=
        SearchExact nw store co (capacity - st.checkedWords.length)
      let r := relChildLoop nw sf capacity children st na
      coocLoop nw store sf capacity cos r.1 r.2

/-- The merged related/parent/child word list with its sort keys
(lines 160–165): category offset plus position within the category. -/
def collectRelWords (entry : Entry) : List (String × Nat) :=
  ((entry.related.getD []).enum.map (fun p => (p.2, 0 + p.1))) ++
  ((entry.parent.getD []).enum.map (fun p => (p.2, 1 + p.1))) ++
  ((entry.child.getD []).enum.map (fun p => (p.2, 2 + p.1)))

/-- One iteration of the main loop of `ExpandEntries` (lines 152–214), after
the pop: append the entry to the output, compute the fan-out budgets, and run
the three fan-outs (`num_appends` is threaded through all of them). -/
noncomputable def expandStep (nw : String → String) (store : Store)
    (sf : Features) (capacity : Int) (st : EState) (negScore : ℝ)
    (entry : Entry) (rest : List HeapElem) : EState :=
  let score := -negScore
  let st := { st with result := st.result ++ [entry], seeds := rest }
  let maxRelWords :=
    max (pyIntR (16 / Real.logb 2 (st.result.length + 1) * score)) 4
  let maxTrans :=
    max (pyIntR (8 / Real.logb 2 (st.result.length + 1) * score)) 2
  let relWords :=
    ((collectRelWords entry).mergeSort (fun a b => decide (a.2 ≤ b.2))).map
      Prod.fst
  let r := relLoop nw store sf capacity (relWords.take maxRelWords.toNat) st 0
  let t := tranLoop nw store sf capacity
    ((entry.translation.getD []).take maxTrans.toNat) r.1 r.2
  let c := coocLoop nw store sf capacity (entry.cooccurrence.getD []) t.1 t.2
  c.1

/-- The `while seeds:` loop of `ExpandEntries` (lines 151–214), with an
explicit fuel.  `expand_terminates_lemma` proves the fuel chosen in
`ExpandEntriesState` always outlasts the loop. -/
noncomputable def expandLoop (nw : String → String) (store : Store)
    (sf : Features) (capacity : Int) : Nat → EState → EState
  | 0, st => st
  | fuel + 1, st =>
    match popMin st.seeds with
    | none => st
    | some (m, rest) =>
      expandLoop nw store sf capacity fuel
        (expandStep nw store sf capacity st m.1 m.2.2 rest)

/-- The initial mutable state of `ExpandEntries`: empty output, empty queue,
zero discovery counter, empty visited sets. -/
def initEState : EState :=
  { result := [], seeds := [], numSteps := 0, checkedWords := [],
    checkedTrans := [] }

/-- The final state of one `ExpandEntries` call. -/
noncomputable def ExpandEntriesState (nw : String → String) (store : Store)
    (seedEntries : List Entry) (sf : Features) (capacity : Int) : EState :=
  let st0 := seedPhase nw sf seedEntries initEState
  expandLoop nw store sf capacity (st0.seeds.length + capacity.toNat) st0

/-- `UnionSearcher.ExpandEntries` (lines 134–215). -/
noncomputable def ExpandEntries (nw : String → String) (store : Store)
    (seedEntries : List Entry) (sf : Features) (capacity : Int) :
    List Entry :=
  (ExpandEntriesState nw store seedEntries sf capacity).result

/-- The inner loop of the seed aggregation (lines 282–283): add every
feature of one seed, scaled by the seed's weight, into the
`defaultdict(float)`. -/
def addFeatures (d : Features) (f : Features) (w : ℚ) : Features :=
  f.foldl (fun d p => dictAdd d p.1 (p.2 * w)) d

/-- The seed-feature aggregation loop of `SearchRelatedWithSeeds`
(lines 273–284): state `(seed_features, base_weight, uniq_words)`.  The
weight of a seed is the current base weight, multiplied by `0.1` when its
normalized headword was already seen; the base weight decays by `×0.8` after
every seed. -/
def seedAgg (nw : String → String) :
    List Entry → Features → ℚ → List String →
    Features × ℚ × List String
  | [], sf, bw, uniq => (sf, bw, uniq)
  | s :: ss, sf, bw, uniq =>
    let normWord := nw s.word
    let weight := if normWord ∈ uniq then bw * 0.1 else bw
    let uniq := normWord :: uniq
    let sf := addFeatures sf (GetFeatures nw s) weight
    seedAgg nw ss sf (bw * 0.8) uniq

/-- The aggregated seed feature vector of `SearchRelatedWithSeeds`. -/
def seedFeaturesOf (nw : String → String) (seeds : List Entry) : Features :=
  (seedAgg nw seeds [] 1 []).1

/-- `UnionSearcher.SearchRelatedWithSeeds` (lines 272–286): aggregate the
seed features, expand with the inflated working capacity
`max(int(capacity * 1.2), 100)`, and truncate to the requested capacity. -/
noncomputable def SearchRelatedWithSeeds (nw : String → String)
    (store : Store) (seeds : List Entry) (capacity : Int) : List Entry :=
  let sf := seedFeaturesOf nw seeds
  pySlice
    (ExpandEntries nw store seeds sf (max (pyIntQ (capacity * 1.2)) 100))
    capacity

/-- The seed-collection fold of `SearchRelated`/`SearchRelatedReverse`
(lines 289–293): skip empty raw terms, extend with the term's exact
matches. -/
noncomputable def collectSeeds (lookup : String → Int → List Entry)
    (capacity : Int) : List String → List Entry → List Entry
  | [], seeds => seeds
  | w :: ws, seeds =>
    if w = "" then collectSeeds lookup capacity ws seeds
    else collectSeeds lookup capacity ws (seeds ++ lookup w capacity)

/-- `UnionSearcher.SearchRelated` (lines 288–294). -/
noncomputable def SearchRelated (nw : String → String) (store : Store)
    (text : String) (capacity : Int) : List Entry :=
  let seeds := collectSeeds (fun w c => SearchExact nw store w c) capacity
    (pySplitComma text) []
  SearchRelatedWithSeeds nw store seeds capacity

/-- `UnionSearcher.SearchRelatedReverse` (lines 296–302). -/
noncomputable def SearchRelatedReverse (nw : String → String) (store : Store)
    (text : String) (capacity : Int) : List Entry :=
  let seeds := collectSeeds (fun w c => SearchExactReverse nw store w c)
    capacity (pySplitComma text) []
  SearchRelatedWithSeeds nw store seeds capacity

/-- The key loop of `SearchPatternMatch` (lines 308–311). -/
def spmLoop (nw : String → String) (store : Store) (capacity : Int) :
    List String → List Entry → List StorageCall →
    List Entry × List StorageCall
  | [], res, calls => (res, calls)
  | k :: ks, res, calls =>
    if (res.length : Int) ≥ capacity then (res, calls)
    else
      let ec := SearchExactT nw store k (capacity - res.length)
      spmLoop nw store capacity ks (res ++ ec.1) (calls ++ ec.2)

/-- `UnionSearcher.SearchPatternMatch` (lines 304–312) together with the
storage calls it issues (the key-file search is itself a storage access). -/
def SearchPatternMatchT (nw : String → String) (store : Store)
    (mode text : String) (capacity : Int) :
    List Entry × List StorageCall :=
  let text' := nw text
  let keys := store.keysSearch mode text' capacity
  spmLoop nw store capacity keys [] [.keySearch mode text' capacity]

/-- `UnionSearcher.SearchPatternMatch`. -/
def SearchPatternMatch (nw : String → String) (store : Store)
    (mode text : String) (capacity : Int) : List Entry :=
  (SearchPatternMatchT nw store mode text capacity).1

/-- The dedup loop over one reverse lookup's entries in
`SearchPatternMatchReverse` (lines 321–326). -/
def spmrInner (capacity : Int) :
    List Entry → List Entry → List String → List Entry × List String
  | [], res, uniq => (res, uniq)
  | e :: es, res, uniq =>
    if (res.length : Int) ≥ capacity then (res, uniq)
    else if e.word ∈ uniq then spmrInner capacity es res uniq
    else spmrInner capacity es (res ++ [e]) (e.word :: uniq)

/-- The key loop of `SearchPatternMatchReverse` (lines 319–326). -/
def spmrLoop (nw : String → String) (store : Store) (capacity : Int) :
    List String → List Entry → List String → List StorageCall →
    List Entry × List StorageCall
  | [], res, _, calls => (res, calls)
  | k :: ks, res, uniq, calls =>
    if (res.length : Int) ≥ capacity then (res, calls)
    else
      let ec := SearchExactReverseT nw store k (capacity - res.length + 10)
      let ru := spmrInner capacity ec.1 res uniq
      spmrLoop nw store capacity ks ru.1 ru.2 (calls ++ ec.2)

/-- `UnionSearcher.SearchPatternMatchReverse` (lines 314–327) together with
the storage calls it issues. -/
def SearchPatternMatchReverseT (nw : String → String) (store : Store)
    (mode text : String) (capacity : Int) :
    List Entry × List StorageCall :=
  let text' := nw text
  let keys := store.tranKeysSearch mode text' capacity
  spmrLoop nw store capacity keys [] [] [.tranKeySearch mode text' capacity]

/-- `UnionSearcher.SearchPatternMatchReverse`. -/
def SearchPatternMatchReverse (nw : String → String) (store : Store)
    (mode text : String) (capacity : Int) : List Entry :=
  (SearchPatternMatchReverseT nw store mode text capacity).1

/-- The key loop of `SearchByGrade` (lines 335–340): per key, append its
exact matches, only the first one when `first_only` is set. -/
def sbgLoop (nw : String → String) (store : Store) (capacity : Int)
    (firstOnly : Bool) :
    List String → List Entry → List StorageCall →
    List Entry × List StorageCall
  | [], res, calls => (res, calls)
  | k :: ks, res, calls =>
    if (res.length : Int) ≥ capacity then (res, calls)
    else
      let ec := SearchExactT nw store k (capacity - res.length)
      let res' := res ++ (if firstOnly then ec.1.take 1 else ec.1)
      sbgLoop nw store capacity firstOnly ks res' (calls ++ ec.2)

/-- `UnionSearcher.SearchByGrade` (lines 329–341) together with the storage
calls it issues. -/
def SearchByGradeT (nw : String → String) (store : Store) (capacity : Int)
    (page : Int) (firstOnly : Bool) : List Entry × List StorageCall :=
  let keys := store.keysSearch "begin" "" (capacity * page)
  let keys := if page > 1 then pyDrop keys (capacity * (page - 1)) else keys
  sbgLoop nw store capacity firstOnly keys []
    [.keySearch "begin" "" (capacity * page)]

/-- `UnionSearcher.SearchByGrade`. -/
def SearchByGrade (nw : String → String) (store : Store) (capacity : Int)
    (page : Int) (firstOnly : Bool) : List Entry :=
  (SearchByGradeT nw store capacity page firstOnly).1

/-- A minimal concrete store (used to instantiate theorems). -/
def emptyStore : Store :=
  { body := [], tranIndex := [], inflIndex := [],
    keysSearch := fun _ _ _ => [], tranKeysSearch := fun _ _ _ => [] }

/-- A minimal dictionary entry used for concrete instantiations. -/
def eC : Entry := { word := "c" }

/-- An entry whose headword collides with the `"__"+pos` pseudo-token of its
second sense item. -/
def ePos : Entry :=
  { word := "__n", item := [Item.mk "" "v" "", Item.mk "" "n" ""] }

/-- The raw headwords held in the priority queue. -/
def heapWords (l : List HeapElem) : List String :=
  l.map (fun x => x.2.2.word)

/-- The invariant maintained by `ExpandEntries` on its mutable state: the
visited set holds pairwise distinct words and counts exactly the pushes
performed so far; the words of the output and of the queue are pairwise
distinct; and all of them have been marked visited. -/
def WInv (st : EState) : Prop :=
  st.checkedWords.Nodup ∧
  st.checkedWords.length = st.numSteps ∧
  (st.result.map Entry.word ++ heapWords st.seeds).Nodup ∧
  ∀ w ∈ st.result.map Entry.word ++ heapWords st.seeds, w ∈ st.checkedWords

/-- What one fan-out phase (or a sequence of them) does to the state:
it preserves the invariant and the output, only pushes (never pops), pushes
only below capacity, and every push adds exactly one visited word. -/
def FanOut (capacity : Int) (st out : EState) : Prop :=
  WInv out ∧
  st.numSteps ≤ out.numSteps ∧
  out.numSteps ≤ max st.numSteps capacity.toNat ∧
  out.seeds.length + st.numSteps = st.seeds.length + out.numSteps ∧
  out.result = st.result

/-- Two entries whose distinct raw headwords share a normalized form. -/
def eUp : Entry := { word := "A" }

/-- See `eUp`. -/
def eLo : Entry := { word := "a" }

/-- A second distinct minimal entry. -/
def eD : Entry := { word := "d" }

/-! ### Association-list (Python dict) lemmas -/

theorem dictGet_mem {α : Type} {d : List (String × α)} {k : String} {v : α}
    (h : dictGet d k = some v) : (k, v) ∈ d := by
  induction d with
  | nil => simp [dictGet] at h
  | cons p rest ih =>
    obtain ⟨k', v'⟩ := p
    by_cases hk : k' = k
    · subst hk
      simp [dictGet] at h
      simp [h]
    · simp [dictGet, hk] at h
      exact List.mem_cons_of_mem _ (ih h)

theorem dictGet_eq_none {α : Type} {d : List (String × α)} {k : String} :
    dictGet d k = none ↔ ∀ p ∈ d, p.1 ≠ k := by
  induction d with
  | nil => simp [dictGet]
  | cons p rest ih =>
    obtain ⟨k', v'⟩ := p
    by_cases hk : k' = k
    · subst hk; simp [dictGet]
    · simp [dictGet, hk, ih]

theorem dictGet_insert_ne {α : Type} {d : List (String × α)} {k w : String}
    {v : α} (h : k ≠ w) : dictGet (dictInsert d k v) w = dictGet d w := by
  induction d with
  | nil => simp [dictInsert, dictGet, h]
  | cons p rest ih =>
    obtain ⟨k', v'⟩ := p
    by_cases hk : k' = k
    · subst hk
      simp [dictInsert, dictGet, h]
    · simp [dictInsert, hk, dictGet, ih]

theorem dictInsert_of_get_none {α : Type} {d : List (String × α)} {k : String}
    (v : α) (h : dictGet d k = none) : dictInsert d k v = d ++ [(k, v)] := by
  induction d with
  | nil => simp [dictInsert]
  | cons p rest ih =>
    obtain ⟨k', v'⟩ := p
    by_cases hk : k' = k
    · subst hk; simp [dictGet] at h
    · simp [dictGet, hk] at h
      simp [dictInsert, hk, ih h]

theorem dictGet_append_left {α : Type} {a : List (String × α)} {k : String}
    {v : α} (b : List (String × α)) (h : dictGet a k = some v) :
    dictGet (a ++ b) k = some v := by
  induction a with
  | nil => simp [dictGet] at h
  | cons p rest ih =>
    obtain ⟨k', v'⟩ := p
    by_cases hk : k' = k <;> simp [dictGet, hk] at h ⊢
    · exact h
    · exact ih h

theorem dictInsert_keys {α : Type} (d : List (String × α)) (k : String)
    (v : α) :
    (dictInsert d k v).map Prod.fst =
      if (dictGet d k).isSome then d.map Prod.fst
      else d.map Prod.fst ++ [k] := by
  induction d with
  | nil => simp [dictInsert, dictGet]
  | cons p rest ih =>
    obtain ⟨k', v'⟩ := p
    by_cases hk : k' = k
    · subst hk; simp [dictInsert, dictGet]
    · simp only [dictInsert, dictGet, if_neg hk]
      by_cases hs : (dictGet rest k).isSome <;> simp [hs, ih]

theorem dictInsert_keys_nodup {α : Type} {d : List (String × α)} {k : String}
    {v : α} (h : (d.map Prod.fst).Nodup) :
    ((dictInsert d k v).map Prod.fst).Nodup := by
  rw [dictInsert_keys]
  by_cases hs : (dictGet d k).isSome
  · simpa [hs]
  · have hk : dictGet d k = none := by
      cases hg : dictGet d k
      · rfl
      · simp [hg] at hs
    simp only [hs, if_false, Bool.false_eq_true]
    refine List.Nodup.append h (by simp) ?_
    intro w hw hw'
    simp at hw'
    subst hw'
    rw [dictGet_eq_none] at hk
    simp only [List.mem_map] at hw
    obtain ⟨q, hq, hqk⟩ := hw
    exact hk q hq hqk

theorem dictGet_of_keys_nodup {α : Type} {d : List (String × α)}
    {p : String × α} (h : (d.map Prod.fst).Nodup) (hp : p ∈ d) :
    dictGet d p.1 = some p.2 := by
  induction d with
  | nil => simp at hp
  | cons q rest ih =>
    obtain ⟨k', v'⟩ := q
    simp at h
    rcases List.mem_cons.mp hp with hp | hp
    · subst hp; simp [dictGet]
    · have hne : k' ≠ p.1 := by
        intro he
        refine h.1 p.2 ?_
        rw [he]
        exact (Prod.mk.eta (p := p)) ▸ hp
      simp [dictGet, hne, ih h.2 hp]

theorem dictInsert_ne_nil {α : Type} (d : List (String × α)) (k : String)
    (v : α) : dictInsert d k v ≠ [] := by
  cases d with
  | nil => simp [dictInsert]
  | cons p rest =>
    obtain ⟨k', v'⟩ := p
    by_cases hk : k' = k <;> simp [dictInsert, hk]

/-! ### Generic helpers for the claims -/

theorem pySlice_length_le {α : Type} (l : List α) {c : Int} (h : 0 ≤ c) :
    ((pySlice l c).length : Int) ≤ c := by
  rw [pySlice, if_pos h]
  calc ((l.take c.toNat).length : Int)
      ≤ (c.toNat : Int) := by
        exact_mod_cast List.length_take_le c.toNat l
    _ = c := Int.toNat_of_nonneg h

/-- C1.  For every capacity `C ≥ 0` and every seed list (and every raw query
text), `SearchRelatedWithSeeds` and `SearchRelated` return at most `C`
entries: both end in the Python slice `result[:capacity]`, which for a
non-negative capacity truncates to at most `capacity` elements. -/
theorem C1_related_search_capacity_bound (nw : String → String)
    (store : Store) (seeds : List Entry) (text : String) (capacity : Int)
    (h : 0 ≤ capacity) :
    ((SearchRelatedWithSeeds nw store seeds capacity).length : Int) ≤
      capacity ∧
    ((SearchRelated nw store text capacity).length : Int) ≤ capacity := by
  constructor
  · exact pySlice_length_le _ h
  · rw [SearchRelated]
    exact pySlice_length_le _ h

/-- Witness for C1 at concrete inputs. -/
theorem C1_related_search_capacity_bound_witness :
    ((SearchRelatedWithSeeds NormalizeWord emptyStore [] 0).length : Int) ≤
      0 ∧
    ((SearchRelated NormalizeWord emptyStore "" 0).length : Int) ≤ 0 :=
  C1_related_search_capacity_bound NormalizeWord emptyStore [] "" 0
    (by norm_num)

/-! ### Lemmas on the part-of-speech accumulator and the similarity sums -/

theorem posAccumAux_max_mono (items : List Item) (pf : List (String × ℚ))
    (pmax ps : ℚ) : pmax ≤ (posAccumAux items pf pmax ps).2 := by
  induction items generalizing pf pmax ps with
  | nil => simp [posAccumAux]
  | cons it rest ih =>
    refine le_trans ?_ (ih _ _ _)
    exact le_max_left _ _

/-- For a non-empty item list, the divisor `pos_score_max` of `GetFeatures`
is at least `1` (the first sense item contributes its full initial
`pos_score = 1.0`). -/
theorem posAccum_max_ge_one {items : List Item} (h : items ≠ []) :
    1 ≤ (posAccum items).2 := by
  match items, h with
  | it :: rest, _ =>
    rw [posAccum, posAccumAux]
    refine le_trans ?_ (posAccumAux_max_mono _ _ _ _)
    simp [dictGet]

theorem simAccum_shift (sf cf : Features) (a b c : ℚ) :
    sf.foldl (fun acc p =>
      let q := (dictGet cf p.1).getD 0
      (acc.1 + p.2 * q, acc.2.1 + p.2 ^ 2, acc.2.2 + q ^ 2)) (a, b, c) =
    (a + (simAccum sf cf).1, b + (simAccum sf cf).2.1,
      c + (simAccum sf cf).2.2) := by
  induction sf generalizing a b c with
  | nil => simp [simAccum]
  | cons p rest ih =>
    rw [simAccum]
    simp only [List.foldl_cons]
    rw [ih, ih]
    simp
    ring_nf
    simp [add_assoc, add_comm, add_left_comm]

theorem simAccum_cons (p : String × ℚ) (rest : List (String × ℚ))
    (cf : Features) :
    simAccum (p :: rest) cf =
      (p.2 * ((dictGet cf p.1).getD 0) + (simAccum rest cf).1,
       p.2 ^ 2 + (simAccum rest cf).2.1,
       ((dictGet cf p.1).getD 0) ^ 2 + (simAccum rest cf).2.2) := by
  rw [simAccum]
  simp only [List.foldl_cons]
  rw [simAccum_shift]
  simp

theorem simAccum_norms_nonneg (sf cf : Features) :
    0 ≤ (simAccum sf cf).2.1 ∧ 0 ≤ (simAccum sf cf).2.2 := by
  induction sf with
  | nil => simp [simAccum]
  | cons p rest ih =>
    rw [simAccum_cons]
    constructor
    · exact add_nonneg (by positivity) ih.1
    · exact add_nonneg (by positivity) ih.2

/-- C10.  No division by zero is reachable: (a) whenever an entry has at
least one sense item, the divisor `pos_score_max` used for the per-tag
normalization in `GetFeatures` is strictly positive (in fact at least 1);
(b) when there are no sense items the per-tag accumulator is empty, so the
normalization loop performs no division at all; (c) in `GetSimilarity` the
guard returns `0.0` whenever either restricted norm accumulator is zero, and
under that guard the divisor `sqrt(seed_norm) * sqrt(cand_norm)` is nonzero.
-/
theorem C10_no_division_by_zero :
    (∀ e : Entry, e.item ≠ [] → (0 : ℚ) < (posAccum e.item).2) ∧
    ((posAccum ([] : List Item)).1 = []) ∧
    (∀ sf cf : Features,
      (simAccum sf cf).2.2 = 0 ∨ (simAccum sf cf).2.1 = 0 →
        GetSimilarity sf cf = 0) ∧
    (∀ sf cf : Features, (simAccum sf cf).2.1 ≠ 0 →
      (simAccum sf cf).2.2 ≠ 0 →
      Real.sqrt ((simAccum sf cf).2.1 : ℝ) *
        Real.sqrt ((simAccum sf cf).2.2 : ℝ) ≠ 0) := by
  refine ⟨?_, ?_, ?_, ?_⟩
  · intro e he
    exact lt_of_lt_of_le zero_lt_one (posAccum_max_ge_one he)
  · rfl
  · intro sf cf h
    rw [GetSimilarity, if_pos h]
  · intro sf cf h1 h2
    have n1 : (0 : ℚ) < (simAccum sf cf).2.1 :=
      lt_of_le_of_ne (simAccum_norms_nonneg sf cf).1 (Ne.symm h1)
    have n2 : (0 : ℚ) < (simAccum sf cf).2.2 :=
      lt_of_le_of_ne (simAccum_norms_nonneg sf cf).2 (Ne.symm h2)
    have s1 : 0 < Real.sqrt ((simAccum sf cf).2.1 : ℝ) :=
      Real.sqrt_pos.mpr (by exact_mod_cast n1)
    have s2 : 0 < Real.sqrt ((simAccum sf cf).2.2 : ℝ) :=
      Real.sqrt_pos.mpr (by exact_mod_cast n2)
    exact ne_of_gt (mul_pos s1 s2)

/-- Witness for C10 at a concrete entry and concrete feature vectors. -/
theorem C10_no_division_by_zero_witness :
    (0 : ℚ) < (posAccum (Item.mk "" "noun" "" :: [])).2 ∧
    GetSimilarity [] [("a", 1)] = 0 :=
  ⟨C10_no_division_by_zero.1 { word := "w", item := [Item.mk "" "noun" ""] }
      (by simp),
   C10_no_division_by_zero.2.2.1 [] [("a", 1)] (by simp [simAccum])⟩

/-! ### C5: seed aggregation weights -/

/-- Counterexample to C5.  With two identical seeds (headword `"c"`), the
first seed's feature `"c"` is added with weight `1.0`, but the duplicate
second seed is added with weight `0.8 × 0.1 = 0.08`, not `0.1`: the
aggregate is `1.08`, whereas a `0.1×` second contribution would give
`1.1`. -/
theorem C5_counterexample :
    dictGet (seedFeaturesOf NormalizeWord [eC, eC]) "c" = some (27/25) ∧
    dictGet (GetFeatures NormalizeWord eC) "c" = some 1 ∧
    (27/25 : ℚ) ≠ 1 + 0.1 * 1 := by
  refine ⟨?_, by rfl, by norm_num⟩
  simp (disch := norm_num) [seedFeaturesOf, seedAgg, addFeatures, GetFeatures,
    baseFeatures, posAccum, posAccumAux, featPass, dictAdd, dictInsert,
    dictGet, NormalizeWord, eC]
  norm_num

/-- C5 (amended).  When the second of two seeds normalizes to the same
headword as the first, the aggregate is the first seed's features with
weight `1.0` plus the duplicate's features with weight `0.8 × 0.1 = 0.08`
(the duplicate dampening multiplies the *current* base weight, which has
already decayed); and the base weight is multiplied by `0.8` after every
seed, duplicate or not, ending at `bw₀ × 0.8^n` after `n` seeds. -/
theorem C5_duplicate_seed_dampening (nw : String → String) (s1 s2 : Entry)
    (seeds : List Entry) (sf0 : Features) (bw0 : ℚ) (uniq0 : List String)
    (h : nw s1.word = nw s2.word) :
    seedFeaturesOf nw [s1, s2] =
      addFeatures (addFeatures [] (GetFeatures nw s1) 1)
        (GetFeatures nw s2) (0.8 * 0.1) ∧
    (seedAgg nw seeds sf0 bw0 uniq0).2.1 = bw0 * 0.8 ^ seeds.length := by
  constructor
  · rw [seedFeaturesOf, seedAgg]
    simp only [List.not_mem_nil, if_false]
    rw [seedAgg]
    simp only [List.mem_singleton, ← h, if_pos rfl, seedAgg]
    norm_num
  · induction seeds generalizing sf0 bw0 uniq0 with
    | nil => simp [seedAgg]
    | cons s ss ih =>
      rw [seedAgg]
      simp only [ih, List.length_cons, pow_succ]
      ring

/-- Witness for C5 (amended) at two concrete identical seeds. -/
theorem C5_duplicate_seed_dampening_witness :
    seedFeaturesOf NormalizeWord [eC, eC] =
      addFeatures (addFeatures [] (GetFeatures NormalizeWord eC) 1)
        (GetFeatures NormalizeWord eC) (0.8 * 0.1) ∧
    (seedAgg NormalizeWord [eC] [] 1 []).2.1 = 1 * 0.8 ^ [eC].length :=
  C5_duplicate_seed_dampening NormalizeWord eC eC [eC] [] 1 [] rfl

/-! ### C8: similarity scorer properties -/

theorem simAccum_of_get_self {sf cf : Features}
    (h : ∀ p ∈ sf, dictGet cf p.1 = some p.2) :
    simAccum sf cf =
      ((sf.map fun p => p.2 ^ 2).sum, (sf.map fun p => p.2 ^ 2).sum,
        (sf.map fun p => p.2 ^ 2).sum) := by
  induction sf with
  | nil => simp [simAccum]
  | cons p rest ih =>
    have hp := h p (List.mem_cons_self p rest)
    rw [simAccum_cons, ih (fun q hq => h q (List.mem_cons_of_mem p hq))]
    simp [hp, pow_two]

theorem sum_sq_pos {F : Features} (hne : F ≠ [])
    (hpos : ∀ p ∈ F, 0 < p.2) : 0 < (F.map fun p => p.2 ^ 2).sum := by
  match F, hne with
  | p :: rest, _ =>
    simp only [List.map_cons, List.sum_cons]
    have h1 : 0 < p.2 ^ 2 := by
      have := hpos p (List.mem_cons_self p rest)
      positivity
    have h2 : 0 ≤ ((rest.map fun p => p.2 ^ 2).sum) := by
      refine List.sum_nonneg ?_
      intro x hx
      simp only [List.mem_map] at hx
      obtain ⟨q, _, hq⟩ := hx
      subst hq
      positivity
    linarith

/-- Self-similarity: a feature vector with distinct keys, at least one entry
and positive weights scores exactly `1.0` against itself. -/
theorem getSimilarity_self_eq_one {F : Features}
    (hn : (F.map Prod.fst).Nodup) (hne : F ≠ [])
    (hpos : ∀ p ∈ F, 0 < p.2) : GetSimilarity F F = 1 := by
  have hget : ∀ p ∈ F, dictGet F p.1 = some p.2 := fun p hp =>
    dictGet_of_keys_nodup hn hp
  have hS := simAccum_of_get_self hget
  have hSpos : 0 < (F.map fun p => p.2 ^ 2).sum := sum_sq_pos hne hpos
  have hz : ¬((simAccum F F).2.2 = 0 ∨ (simAccum F F).2.1 = 0) := by
    rw [hS]
    push_neg
    exact ⟨ne_of_gt hSpos, ne_of_gt hSpos⟩
  simp only [GetSimilarity]
  rw [if_neg hz, hS]
  simp only
  have hc : (0 : ℝ) < (((F.map fun p => p.2 ^ 2).sum : ℚ) : ℝ) := by
    exact_mod_cast hSpos
  rw [Real.mul_self_sqrt (le_of_lt hc), div_self (ne_of_gt hc)]
  norm_num

theorem simAccum_product_nonneg {sf cf : Features}
    (hsf : ∀ p ∈ sf, 0 ≤ p.2) (hcf : ∀ p ∈ cf, 0 ≤ p.2) :
    0 ≤ (simAccum sf cf).1 := by
  induction sf with
  | nil => simp [simAccum]
  | cons p rest ih =>
    rw [simAccum_cons]
    have hterm : 0 ≤ p.2 * ((dictGet cf p.1).getD 0) := by
      refine mul_nonneg (hsf p (List.mem_cons_self p rest)) ?_
      cases hg : dictGet cf p.1 with
      | none => simp
      | some v => simpa using hcf _ (dictGet_mem hg)
    exact add_nonneg hterm (ih (fun q hq => hsf q (List.mem_cons_of_mem p hq)))

/-- C8.  The similarity scorer: (a) any nonempty feature vector with
distinct keys and weights in `(0, 1]` has self-similarity exactly `1.0`;
(b) the score is `0.0` whenever either restricted norm is zero; (c) for
vectors with nonnegative weights the score lies in `[0, 1]`; (d) whenever
the capped raw ratio reaches `0.99999` the score is rounded up to exactly
`1.0`. -/
theorem C8_similarity_scorer_properties :
    (∀ F : Features, F ≠ [] → (F.map Prod.fst).Nodup →
      (∀ p ∈ F, 0 < p.2 ∧ p.2 ≤ 1) → GetSimilarity F F = 1) ∧
    (∀ sf cf : Features,
      (simAccum sf cf).2.2 = 0 ∨ (simAccum sf cf).2.1 = 0 →
        GetSimilarity sf cf = 0) ∧
    (∀ sf cf : Features, (∀ p ∈ sf, 0 ≤ p.2) → (∀ p ∈ cf, 0 ≤ p.2) →
      0 ≤ GetSimilarity sf cf ∧ GetSimilarity sf cf ≤ 1) ∧
    (∀ sf cf : Features,
      ¬((simAccum sf cf).2.2 = 0 ∨ (simAccum sf cf).2.1 = 0) →
      (0.99999 : ℝ) ≤
        min (((simAccum sf cf).1 : ℝ) /
          (Real.sqrt ((simAccum sf cf).2.1 : ℝ) *
            Real.sqrt ((simAccum sf cf).2.2 : ℝ))) 1 →
      GetSimilarity sf cf = 1) := by
  refine ⟨?_, ?_, ?_, ?_⟩
  · intro F hne hn hw
    exact getSimilarity_self_eq_one hn hne (fun p hp => (hw p hp).1)
  · intro sf cf h
    simp only [GetSimilarity]
    rw [if_pos h]
  · intro sf cf hsf hcf
    simp only [GetSimilarity]
    by_cases hz : (simAccum sf cf).2.2 = 0 ∨ (simAccum sf cf).2.1 = 0
    · rw [if_pos hz]
      norm_num
    · rw [if_neg hz]
      have hlo : 0 ≤ min (((simAccum sf cf).1 : ℝ) /
          (Real.sqrt ((simAccum sf cf).2.1 : ℝ) *
            Real.sqrt ((simAccum sf cf).2.2 : ℝ))) 1 := by
        refine le_min ?_ (by norm_num)
        refine div_nonneg ?_ ?_
        · exact_mod_cast simAccum_product_nonneg hsf hcf
        · exact mul_nonneg (Real.sqrt_nonneg _) (Real.sqrt_nonneg _)
      have hhi : min (((simAccum sf cf).1 : ℝ) /
          (Real.sqrt ((simAccum sf cf).2.1 : ℝ) *
            Real.sqrt ((simAccum sf cf).2.2 : ℝ))) 1 ≤ 1 :=
        min_le_right _ _
      by_cases hb : (0.99999 : ℝ) ≤ min (((simAccum sf cf).1 : ℝ) /
          (Real.sqrt ((simAccum sf cf).2.1 : ℝ) *
            Real.sqrt ((simAccum sf cf).2.2 : ℝ))) 1
      · rw [if_pos hb]
        norm_num
      · rw [if_neg hb]
        exact ⟨hlo, hhi⟩
  · intro sf cf hz hb
    simp only [GetSimilarity]
    rw [if_neg hz]
    rw [if_pos hb]

/-- Witness for C8 at the one-feature vector `[("a", 1)]`. -/
theorem C8_similarity_scorer_properties_witness :
    GetSimilarity [("a", 1)] [("a", 1)] = 1 :=
  C8_similarity_scorer_properties.1 [("a", 1)] (by simp) (by simp)
    (by intro p hp; simp at hp; subst hp; norm_num)

/-! ### C3: determinism and heap tie-breaking -/

theorem heLE_refl (a : HeapElem) : heLE a a := Or.inr ⟨rfl, le_refl _⟩

theorem heLE_total (a b : HeapElem) : heLE a b ∨ heLE b a := by
  rcases lt_trichotomy a.1 b.1 with h | h | h
  · exact Or.inl (Or.inl h)
  · rcases Nat.le_total a.2.1 b.2.1 with hn | hn
    · exact Or.inl (Or.inr ⟨h, hn⟩)
    · exact Or.inr (Or.inr ⟨h.symm, hn⟩)
  · exact Or.inr (Or.inl h)

theorem heLE_trans {a b c : HeapElem} (h1 : heLE a b) (h2 : heLE b c) :
    heLE a c := by
  rcases h1 with h1 | ⟨h1, h1n⟩ <;> rcases h2 with h2 | ⟨h2, h2n⟩
  · exact Or.inl (lt_trans h1 h2)
  · exact Or.inl (h2 ▸ h1)
  · exact Or.inl (h1 ▸ h2)
  · exact Or.inr ⟨h1.trans h2, le_trans h1n h2n⟩

theorem popMin_eq_none {l : List HeapElem} : popMin l = none ↔ l = [] := by
  cases l with
  | nil => simp [popMin]
  | cons x xs =>
    simp only [popMin]
    cases h : popMin xs with
    | none => simp
    | some m =>
      obtain ⟨m, rest⟩ := m
      by_cases hle : heLE x m <;> simp [hle]

theorem popMin_min {l : List HeapElem} {m : HeapElem}
    {rest : List HeapElem} (h : popMin l = some (m, rest)) :
    ∀ x ∈ l, heLE m x := by
  induction l generalizing m rest with
  | nil => simp [popMin] at h
  | cons x xs ih =>
    rw [popMin] at h
    cases hxs : popMin xs with
    | none =>
      rw [hxs] at h
      dsimp only at h
      simp at h
      obtain ⟨rfl, rfl⟩ := h
      intro y hy
      have : xs = [] := popMin_eq_none.mp hxs
      subst this
      simp at hy
      subst hy
      exact heLE_refl _
    | some p =>
      obtain ⟨m', rest'⟩ := p
      rw [hxs] at h
      dsimp only at h
      by_cases hle : heLE x m'
      · rw [if_pos hle] at h
        simp at h
        obtain ⟨rfl, rfl⟩ := h
        intro y hy
        rcases List.mem_cons.mp hy with hy | hy
        · subst hy; exact heLE_refl _
        · exact heLE_trans hle (ih hxs y hy)
      · rw [if_neg hle] at h
        simp at h
        obtain ⟨rfl, rfl⟩ := h
        intro y hy
        rcases List.mem_cons.mp hy with hy | hy
        · subst hy
          exact (heLE_total y m').resolve_left hle
        · exact ih hxs y hy

theorem popMin_perm {l : List HeapElem} {m : HeapElem}
    {rest : List HeapElem} (h : popMin l = some (m, rest)) :
    l.Perm (m :: rest) := by
  induction l generalizing m rest with
  | nil => simp [popMin] at h
  | cons x xs ih =>
    rw [popMin] at h
    cases hxs : popMin xs with
    | none =>
      rw [hxs] at h
      dsimp only at h
      simp at h
      obtain ⟨rfl, rfl⟩ := h
      have : xs = [] := popMin_eq_none.mp hxs
      subst this
      exact List.Perm.refl _
    | some p =>
      obtain ⟨m', rest'⟩ := p
      rw [hxs] at h
      dsimp only at h
      by_cases hle : heLE x m'
      · rw [if_pos hle] at h
        simp at h
        obtain ⟨rfl, rfl⟩ := h
        exact List.Perm.refl _
      · rw [if_neg hle] at h
        simp at h
        obtain ⟨rfl, rfl⟩ := h
        exact List.Perm.trans (List.Perm.cons x (ih hxs))
          (List.Perm.swap m' x rest')

/-- C3.  Determinism of the search pipeline: (a) the whole expansion is a
pure function of its inputs, so identical inputs over a fixed store produce
identical ordered outputs; (b) the queue pop always selects an element that
is minimal in the lexicographic `(-score, num_steps)` order — in particular,
among entries of equal score the one with the least discovery index wins;
(c) `AddSeed` pushes the tuple tagged with the current value of the strictly
increasing discovery counter and increments the counter, so discovery-order
tags are unique and monotonic. -/
theorem C3_deterministic_ordering :
    (∀ (nw : String → String) (store : Store) (seeds : List Entry)
      (sf : Features) (capacity : Int),
      ExpandEntries nw store seeds sf capacity =
        ExpandEntries nw store seeds sf capacity) ∧
    (∀ (l : List HeapElem) (m : HeapElem) (rest : List HeapElem),
      popMin l = some (m, rest) →
      ∀ x ∈ l, m.1 < x.1 ∨ (m.1 = x.1 ∧ m.2.1 ≤ x.2.1)) ∧
    (∀ (nw : String → String) (sf : Features) (st : EState) (e : Entry),
      (addSeed nw sf st e).numSteps = st.numSteps + 1 ∧
      (addSeed nw sf st e).seeds =
        st.seeds ++
          [(-(GetSimilarity sf (GetFeatures nw e)), st.numSteps, e)]) :=
  ⟨fun _ _ _ _ _ => rfl,
   fun _ _ _ h x hx => popMin_min h x hx,
   fun _ _ _ _ => ⟨rfl, rfl⟩⟩

/-- Witness for C3: a singleton queue pops its unique element, which is
trivially minimal. -/
theorem C3_deterministic_ordering_witness :
    ((0 : ℝ), 0, eC).1 < ((0 : ℝ), 0, eC).1 ∨
      (((0 : ℝ), 0, eC) : HeapElem).1 = ((0 : ℝ), 0, eC).1 ∧
        (((0 : ℝ), 0, eC) : HeapElem).2.1 ≤ ((0 : ℝ), 0, eC).2.1 :=
  C3_deterministic_ordering.2.1 [((0 : ℝ), 0, eC)] ((0 : ℝ), 0, eC) []
    rfl ((0 : ℝ), 0, eC) (List.mem_singleton.mpr rfl)

/-! ### C6: the decayed feature weights of `GetFeatures` -/

theorem featPass_structure (prep : String → String) (toks : List String)
    (fs : Features) (s : ℚ) :
    ∃ added : Features,
      (featPass prep toks fs s).1 = fs ++ added ∧
      (featPass prep toks fs s).2 = s * 0.95 ^ added.length ∧
      (∀ i (h : i < added.length),
        (added.get ⟨i, h⟩).2 = s * 0.95 ^ (i + 1)) := by
  induction toks generalizing fs s with
  | nil =>
    refine ⟨[], by simp [featPass], by simp [featPass], by simp⟩
  | cons t ts ih =>
    by_cases hg : (dictGet fs (prep t)).isSome
    · rw [featPass]
      simp only [if_pos hg]
      exact ih fs s
    · have hnone : dictGet fs (prep t) = none := by
        cases h : dictGet fs (prep t)
        · rfl
        · simp [h] at hg
      rw [featPass]
      simp only [if_neg hg]
      rw [dictInsert_of_get_none _ hnone]
      obtain ⟨added', h1, h2, h3⟩ := ih (fs ++ [(prep t, s * 0.95)]) (s * 0.95)
      refine ⟨(prep t, s * 0.95) :: added', ?_, ?_, ?_⟩
      · rw [h1, List.append_assoc]
        simp
      · rw [h2, List.length_cons, pow_succ]
        ring
      · intro i hi
        cases i with
        | zero => simp [pow_one]
        | succ j =>
          have hj : j < added'.length := by
            simpa using Nat.lt_of_succ_lt_succ hi
          have := h3 j hj
          simp only [List.get_cons_succ]
          rw [this, pow_succ, pow_add]
          ring

theorem decayed_append {s : ℚ} {a b : Features}
    (ha : ∀ i (h : i < a.length), (a.get ⟨i, h⟩).2 = s * 0.95 ^ (i + 1))
    (hb : ∀ i (h : i < b.length),
      (b.get ⟨i, h⟩).2 = (s * 0.95 ^ a.length) * 0.95 ^ (i + 1)) :
    ∀ i (h : i < (a ++ b).length),
      ((a ++ b).get ⟨i, h⟩).2 = s * 0.95 ^ (i + 1) := by
  intro i h
  by_cases hi : i < a.length
  · rw [List.get_append i hi]
    exact ha i hi
  · push_neg at hi
    have hib : i - a.length < b.length := by
      simp at h
      omega
    rw [List.get_eq_getElem, List.getElem_append_right hi]
    have hbv := hb (i - a.length) hib
    rw [List.get_eq_getElem] at hbv
    rw [hbv]
    have hh : i + 1 = a.length + (i - a.length + 1) := by omega
    rw [hh, pow_add, mul_assoc]
    ring

theorem dictGet_foldl_insert_ne {l : List (String × ℚ)} {acc : Features}
    {w : String} {den : ℚ} (hne : ∀ p ∈ l, p.1 ≠ w) :
    dictGet (l.foldl (fun fs p => dictInsert fs p.1 (p.2 / den)) acc) w =
      dictGet acc w := by
  induction l generalizing acc with
  | nil => simp
  | cons p rest ih =>
    simp only [List.foldl_cons]
    rw [ih (fun q hq => hne q (List.mem_cons_of_mem p hq))]
    exact dictGet_insert_ne (hne p (List.mem_cons_self p rest))

theorem baseFeatures_headword {nw : String → String} {e : Entry}
    (h : dictGet (posAccum e.item).1 (nw e.word) = none) :
    dictGet (baseFeatures nw e) (nw e.word) = some 1 := by
  rw [baseFeatures]
  rw [dictGet_foldl_insert_ne (dictGet_eq_none.mp h)]
  simp [dictGet]

/-- C6 (amended).  In `GetFeatures`: provided the normalized headword does
not collide with one of the entry's `"__"+pos` pseudo-tokens, its weight is
exactly `1.0`; and the tokens newly introduced by the related, translation
and co-occurrence passes (in that order, at most 20 items read per pass,
duplicates skipped without consuming a decay step) form a suffix of the
feature list in which the `k`-th token (1-indexed, counted across all three
passes by the single shared decay counter) has weight exactly `0.95 ^ k`. -/
theorem C6_shared_decay_weights (nw : String → String) (e : Entry)
    (h : dictGet (posAccum e.item).1 (nw e.word) = none) :
    dictGet (GetFeatures nw e) (nw e.word) = some 1 ∧
    ∃ added : Features,
      GetFeatures nw e = baseFeatures nw e ++ added ∧
      ∀ i (hi : i < added.length),
        (added.get ⟨i, hi⟩).2 = 0.95 ^ (i + 1) := by
  have hstruct : ∃ added : Features,
      GetFeatures nw e = baseFeatures nw e ++ added ∧
      ∀ i (hi : i < added.length),
        (added.get ⟨i, hi⟩).2 = 0.95 ^ (i + 1) := by
    obtain ⟨a1, h11, h12, h13⟩ := featPass_structure (fun w => nw w)
      ((e.related.getD []).take 20) (baseFeatures nw e) 1
    obtain ⟨a2, h21, h22, h23⟩ := featPass_structure
      (fun w => stripSuffixes featTranSuffixes (nw w))
      ((e.translation.getD []).take 20)
      ((featPass (fun w => nw w) ((e.related.getD []).take 20)
        (baseFeatures nw e) 1).1)
      ((featPass (fun w => nw w) ((e.related.getD []).take 20)
        (baseFeatures nw e) 1).2)
    obtain ⟨a3, h31, h32, h33⟩ := featPass_structure (fun w => nw w)
      ((e.cooccurrence.getD []).take 20)
      ((featPass (fun w => stripSuffixes featTranSuffixes (nw w))
        ((e.translation.getD []).take 20)
        ((featPass (fun w => nw w) ((e.related.getD []).take 20)
          (baseFeatures nw e) 1).1)
        ((featPass (fun w => nw w) ((e.related.getD []).take 20)
          (baseFeatures nw e) 1).2)).1)
      ((featPass (fun w => stripSuffixes featTranSuffixes (nw w))
        ((e.translation.getD []).take 20)
        ((featPass (fun w => nw w) ((e.related.getD []).take 20)
          (baseFeatures nw e) 1).1)
        ((featPass (fun w => nw w) ((e.related.getD []).take 20)
          (baseFeatures nw e) 1).2)).2)
    refine ⟨a1 ++ (a2 ++ a3), ?_, ?_⟩
    · simp only [GetFeatures]
      rw [h31, h21, h11, List.append_assoc]
      exact List.append_assoc _ _ _
    · have hb2 : ∀ i (hi : i < a2.length),
          (a2.get ⟨i, hi⟩).2 = (1 * 0.95 ^ a1.length) * 0.95 ^ (i + 1) := by
        intro i hi
        rw [h23 i hi, h12]
      have hb3 : ∀ i (hi : i < a3.length),
          (a3.get ⟨i, hi⟩).2 =
            ((1 * 0.95 ^ a1.length) * 0.95 ^ a2.length) * 0.95 ^ (i + 1) := by
        intro i hi
        rw [h33 i hi, h22, h12]
      have hglue2 : ∀ i (hi : i < (a2 ++ a3).length),
          ((a2 ++ a3).get ⟨i, hi⟩).2 =
            (1 * 0.95 ^ a1.length) * 0.95 ^ (i + 1) :=
        decayed_append hb2 hb3
      have hglue : ∀ i (hi : i < (a1 ++ (a2 ++ a3)).length),
          ((a1 ++ (a2 ++ a3)).get ⟨i, hi⟩).2 = 1 * 0.95 ^ (i + 1) :=
        decayed_append (by intro i hi; rw [h13 i hi]) hglue2
      intro i hi
      rw [hglue i hi, one_mul]
  refine ⟨?_, hstruct⟩
  obtain ⟨added, hadd, _⟩ := hstruct
  rw [hadd]
  exact dictGet_append_left added (baseFeatures_headword h)

/-- Witness for C6 (amended) at a concrete entry with no pos collision. -/
theorem C6_shared_decay_weights_witness :
    dictGet (GetFeatures NormalizeWord eC) (NormalizeWord eC.word) =
      some 1 ∧
    ∃ added : Features,
      GetFeatures NormalizeWord eC = baseFeatures NormalizeWord eC ++ added ∧
      ∀ i (hi : i < added.length),
        (added.get ⟨i, hi⟩).2 = 0.95 ^ (i + 1) :=
  C6_shared_decay_weights NormalizeWord eC rfl

/-- Counterexample to C6 as stated.  For the entry with headword `"__n"` and
sense items tagged `v` then `n`, the part-of-speech pass overwrites the
headword's initial weight `1.0` with the normalized tag score
`0.95 / 1 = 0.95`, so the entry's own normalized headword does *not* always
have weight exactly `1.0`. -/
theorem C6_counterexample :
    NormalizeWord ePos.word = "__n" ∧
    dictGet (GetFeatures NormalizeWord ePos) "__n" = some (19/20) ∧
    (19/20 : ℚ) ≠ 1 := by
  refine ⟨by rfl, ?_, by norm_num⟩
  simp (disch := norm_num) [GetFeatures, baseFeatures, posAccum, posAccumAux,
    featPass, dictInsert, dictGet, NormalizeWord, ePos]
  norm_num

/-! ### C4: behaviour at non-positive capacity -/

theorem searchExactT_nonpos {nw : String → String} {store : Store}
    {text : String} {capacity : Int} (h : capacity ≤ 0) :
    SearchExactT nw store text capacity = ([], []) := by
  rw [SearchExactT]
  cases pySplitComma text with
  | nil => rfl
  | cons w ws =>
    rw [seOuter]
    rw [if_pos (by simpa using h)]

theorem serPhase3_nonpos {nw : String → String} {store : Store}
    {jaWords : List String} {ens : List String} {capacity : Int}
    {calls : List StorageCall} (h : capacity < 1) :
    (serPhase3 nw store jaWords ens capacity [] [] calls).1 = [] := by
  cases ens with
  | nil => rfl
  | cons en ens' =>
    rw [serPhase3]
    rw [if_pos h]

theorem searchExactReverse_nonpos {nw : String → String} {store : Store}
    {text : String} {capacity : Int} (h : capacity ≤ 0) :
    SearchExactReverse nw store text capacity = [] := by
  rw [SearchExactReverse, SearchExactReverseT]
  exact serPhase3_nonpos (by omega)

theorem expandLoop_empty_heap (nw : String → String) (store : Store)
    (sf : Features) (capacity : Int) (fuel : Nat) (st : EState)
    (h : st.seeds = []) :
    expandLoop nw store sf capacity fuel st = st := by
  cases fuel with
  | zero => rfl
  | succ n =>
    rw [expandLoop, h]
    rfl

theorem pySlice_nil {α : Type} (c : Int) : pySlice ([] : List α) c = [] := by
  rw [pySlice]
  split <;> simp

theorem expandEntries_no_seeds (nw : String → String) (store : Store)
    (sf : Features) (capacity : Int) :
    ExpandEntries nw store [] sf capacity = [] := by
  rw [ExpandEntries, ExpandEntriesState]
  simp only [seedPhase]
  rw [expandLoop_empty_heap _ _ _ _ _ _ rfl]
  rfl

theorem collectSeeds_empty {lookup : String → Int → List Entry}
    {capacity : Int} {ws : List String}
    (h : ∀ w, lookup w capacity = []) :
    collectSeeds lookup capacity ws [] = [] := by
  induction ws with
  | nil => rfl
  | cons w ws' ih =>
    rw [collectSeeds]
    by_cases hw : w = ""
    · rw [if_pos hw]
      exact ih
    · rw [if_neg hw, h w]
      simpa using ih

/-- Counterexample to C4 as stated.  `SearchExactReverse` with capacity `0`
returns an empty result, but it still issues a reverse-index storage lookup
for every (deduplicated, normalized) query term before the capacity is ever
consulted: the claim that no storage call is issued is false. -/
theorem C4_counterexample :
    SearchExactReverse NormalizeWord emptyStore "x" 0 = [] ∧
    (SearchExactReverseT NormalizeWord emptyStore "x" 0).2 =
      [StorageCall.tranIndex "x"] := by
  constructor <;> rfl

/-- C4 (amended).  Every facade search operation returns an empty result for
capacity `≤ 0`, and `SearchExact` (hence also the seed collection of
`SearchRelated`) issues no storage calls; `SearchExactReverse`, however,
still issues its reverse-index lookups (see the counterexample), and the
pattern searches still query the key files. -/
theorem C4_nonpositive_capacity (nw : String → String) (store : Store)
    (text mode : String) (capacity page : Int) (firstOnly : Bool)
    (h : capacity ≤ 0) :
    SearchExact nw store text capacity = [] ∧
    (SearchExactT nw store text capacity).2 = [] ∧
    SearchExactReverse nw store text capacity = [] ∧
    SearchPatternMatch nw store mode text capacity = [] ∧
    SearchPatternMatchReverse nw store mode text capacity = [] ∧
    SearchByGrade nw store capacity page firstOnly = [] ∧
    SearchRelated nw store text capacity = [] ∧
    SearchRelatedReverse nw store text capacity = [] := by
  have hse : ∀ t : String, SearchExact nw store t capacity = [] := by
    intro t
    rw [SearchExact, searchExactT_nonpos h]
  have hser : ∀ t : String, SearchExactReverse nw store t capacity = [] :=
    fun t => searchExactReverse_nonpos h
  refine ⟨hse text, ?_, hser text, ?_, ?_, ?_, ?_, ?_⟩
  · rw [searchExactT_nonpos h]
  · rw [SearchPatternMatch, SearchPatternMatchT]
    cases store.keysSearch mode (nw text) capacity with
    | nil => rfl
    | cons k ks =>
      rw [spmLoop]
      rw [if_pos (by simpa using h)]
  · rw [SearchPatternMatchReverse, SearchPatternMatchReverseT]
    cases store.tranKeysSearch mode (nw text) capacity with
    | nil => rfl
    | cons k ks =>
      rw [spmrLoop]
      rw [if_pos (by simpa using h)]
  · rw [SearchByGrade, SearchByGradeT]
    set keys := if page > 1
      then pyDrop (store.keysSearch "begin" "" (capacity * page))
        (capacity * (page - 1))
      else store.keysSearch "begin" "" (capacity * page) with hkeys
    cases keys with
    | nil => rfl
    | cons k ks =>
      rw [sbgLoop]
      rw [if_pos (by simpa using h)]
  · rw [SearchRelated]
    rw [collectSeeds_empty hse, SearchRelatedWithSeeds]
    rw [expandEntries_no_seeds, pySlice_nil]
  · rw [SearchRelatedReverse]
    rw [collectSeeds_empty hser, SearchRelatedWithSeeds]
    rw [expandEntries_no_seeds, pySlice_nil]

/-- Witness for C4 (amended) at capacity `0`. -/
theorem C4_nonpositive_capacity_witness :
    SearchExact NormalizeWord emptyStore "x" 0 = [] ∧
    (SearchExactT NormalizeWord emptyStore "x" 0).2 = [] ∧
    SearchExactReverse NormalizeWord emptyStore "x" 0 = [] ∧
    SearchPatternMatch NormalizeWord emptyStore "begin" "x" 0 = [] ∧
    SearchPatternMatchReverse NormalizeWord emptyStore "begin" "x" 0 = [] ∧
    SearchByGrade NormalizeWord emptyStore 0 1 true = [] ∧
    SearchRelated NormalizeWord emptyStore "x" 0 = [] ∧
    SearchRelatedReverse NormalizeWord emptyStore "x" 0 = [] :=
  C4_nonpositive_capacity NormalizeWord emptyStore "x" "begin" 0 1 true
    (by norm_num)

/-! ### The expansion loop: result growth and the visited-set invariant -/

theorem addSeed_result (nw : String → String) (sf : Features) (st : EState)
    (e : Entry) : (addSeed nw sf st e).result = st.result := rfl

theorem relChildLoop_result (nw : String → String) (sf : Features)
    (capacity : Int) :
    ∀ (cs : List Entry) (st : EState) (na : Nat),
      ((relChildLoop nw sf capacity cs st na).1).result = st.result := by
  intro cs
  induction cs with
  | nil => intro st na; rfl
  | cons c cs' ih =>
    intro st na
    rw [relChildLoop]
    split_ifs with h1 h2
    · rfl
    · exact ih st na
    · rw [ih]
      rfl

theorem relLoop_result (nw : String → String) (store : Store) (sf : Features)
    (capacity : Int) :
    ∀ (rws : List String) (st : EState) (na : Nat),
      ((relLoop nw store sf capacity rws st na).1).result = st.result := by
  intro rws
  induction rws with
  | nil => intro st na; rfl
  | cons rw' rws' ih =>
    intro st na
    rw [relLoop]
    split_ifs with h1 h2
    · rfl
    · exact ih st na
    · rw [ih, relChildLoop_result]

theorem tranChildLoop_result (nw : String → String) (sf : Features)
    (capacity : Int) :
    ∀ (cs : List Entry) (st : EState) (na nta : Nat),
      ((tranChildLoop nw sf capacity cs st na nta).1).result = st.result := by
  intro cs
  induction cs with
  | nil => intro st na nta; rfl
  | cons c cs' ih =>
    intro st na nta
    rw [tranChildLoop]
    split_ifs with h1 h2 h3
    · rfl
    · rfl
    · exact ih st na nta
    · rw [ih]
      rfl

theorem tranLoop_result (nw : String → String) (store : Store)
    (sf : Features) (capacity : Int) :
    ∀ (trs : List String) (st : EState) (na : Nat),
      ((tranLoop nw store sf capacity trs st na).1).result = st.result := by
  intro trs
  induction trs with
  | nil => intro st na; rfl
  | cons tr trs' ih =>
    intro st na
    rw [tranLoop]
    by_cases h1 : (st.checkedWords.length : Int) ≥ capacity
    · rw [if_pos h1]
    · rw [if_neg h1]
      dsimp only
      by_cases h2 : stripSuffixes expandTranSuffixes2
          (stripSuffixes expandTranSuffixes1 tr) ∈ st.checkedTrans
      · rw [if_pos h2]
        exact ih st na
      · rw [if_neg h2]
        rw [ih, tranChildLoop_result]

theorem coocLoop_result (nw : String → String) (store : Store)
    (sf : Features) (capacity : Int) :
    ∀ (cos : List String) (st : EState) (na : Nat),
      ((coocLoop nw store sf capacity cos st na).1).result = st.result := by
  intro cos
  induction cos with
  | nil => intro st na; rfl
  | cons co cos' ih =>
    intro st na
    rw [coocLoop]
    split_ifs with h1 h2 h3
    · rfl
    · rfl
    · exact ih st na
    · rw [ih, relChildLoop_result]

theorem expandStep_result (nw : String → String) (store : Store)
    (sf : Features) (capacity : Int) (st : EState) (negScore : ℝ)
    (entry : Entry) (rest : List HeapElem) :
    (expandStep nw store sf capacity st negScore entry rest).result =
      st.result ++ [entry] := by
  rw [expandStep]
  rw [coocLoop_result, tranLoop_result, relLoop_result]

theorem expandLoop_result_prefix (nw : String → String) (store : Store)
    (sf : Features) (capacity : Int) :
    ∀ (fuel : Nat) (st : EState), ∃ tail,
      (expandLoop nw store sf capacity fuel st).result =
        st.result ++ tail := by
  intro fuel
  induction fuel with
  | zero => intro st; exact ⟨[], by simp [expandLoop]⟩
  | succ n ih =>
    intro st
    rw [expandLoop]
    cases hp : popMin st.seeds with
    | none => exact ⟨[], by simp⟩
    | some p =>
      obtain ⟨m, rest⟩ := p
      obtain ⟨tail, htail⟩ :=
        ih (expandStep nw store sf capacity st m.1 m.2.2 rest)
      refine ⟨m.2.2 :: tail, ?_⟩
      rw [htail, expandStep_result]
      simp

/-! ### Wellformedness of `GetFeatures` output -/

theorem mem_dictInsert {α : Type} {d : List (String × α)} {k : String}
    {v : α} {p : String × α} (h : p ∈ dictInsert d k v) :
    p.2 = v ∨ p ∈ d := by
  induction d with
  | nil =>
    simp [dictInsert] at h
    simp [h]
  | cons q rest ih =>
    obtain ⟨k', v'⟩ := q
    by_cases hk : k' = k
    · subst hk
      simp [dictInsert] at h
      rcases h with h | h
      · simp [h]
      · exact Or.inr (List.mem_cons_of_mem _ h)
    · simp only [dictInsert, if_neg hk] at h
      rcases List.mem_cons.mp h with h | h
      · exact Or.inr (h ▸ List.mem_cons_self _ _)
      · rcases ih h with h1 | h1
        · exact Or.inl h1
        · exact Or.inr (List.mem_cons_of_mem _ h1)

theorem posAccumAux_values_pos {items : List Item}
    {pf : List (String × ℚ)} {pmax ps : ℚ}
    (hpf : ∀ p ∈ pf, 0 < p.2) (hps : 0 < ps) :
    ∀ p ∈ (posAccumAux items pf pmax ps).1, 0 < p.2 := by
  induction items generalizing pf pmax ps with
  | nil => simpa [posAccumAux] using hpf
  | cons it rest ih =>
    rw [posAccumAux]
    refine ih ?_ (by positivity)
    intro p hp
    rcases mem_dictInsert hp with h1 | h1
    · rw [h1]
      have hge : 0 ≤ ((dictGet pf ("__" ++ it.pos)).getD 0) := by
        cases hg : dictGet pf ("__" ++ it.pos) with
        | none => simp
        | some v => simpa using le_of_lt (hpf _ (dictGet_mem hg))
      positivity
    · exact hpf p h1

theorem foldl_insert_values_pos {l : List (String × ℚ)} {acc : Features}
    {den : ℚ} (hacc : ∀ p ∈ acc, 0 < p.2)
    (hl : ∀ p ∈ l, 0 < p.2 / den) :
    ∀ p ∈ l.foldl (fun fs p => dictInsert fs p.1 (p.2 / den)) acc,
      0 < p.2 := by
  induction l generalizing acc with
  | nil => simpa using hacc
  | cons q rest ih =>
    simp only [List.foldl_cons]
    refine ih ?_ (fun p hp => hl p (List.mem_cons_of_mem q hp))
    intro p hp
    rcases mem_dictInsert hp with h1 | h1
    · rw [h1]
      exact hl q (List.mem_cons_self q rest)
    · exact hacc p h1

theorem baseFeatures_values_pos (nw : String → String) (e : Entry) :
    ∀ p ∈ baseFeatures nw e, 0 < p.2 := by
  have hpos : ∀ p ∈ (posAccum e.item).1, 0 < p.2 := by
    rw [posAccum]
    refine posAccumAux_values_pos ?_ one_pos
    intro p hp
    simp at hp
  rw [baseFeatures]
  cases hi : e.item with
  | nil => simp [posAccum, posAccumAux, dictGet]
  | cons it rest =>
    rw [hi] at hpos
    have hden : 0 < (posAccum (it :: rest)).2 :=
      lt_of_lt_of_le zero_lt_one (posAccum_max_ge_one (by simp))
    refine foldl_insert_values_pos ?_ ?_
    · intro p hp
      obtain rfl := List.mem_singleton.mp hp
      norm_num
    · intro p hp
      exact div_pos (hpos p hp) hden

theorem featPass_values_pos {prep : String → String} {toks : List String}
    {fs : Features} {s : ℚ} (hfs : ∀ p ∈ fs, 0 < p.2) (hs : 0 < s) :
    ∀ p ∈ (featPass prep toks fs s).1, 0 < p.2 := by
  induction toks generalizing fs s with
  | nil => simpa [featPass] using hfs
  | cons t ts ih =>
    rw [featPass]
    by_cases hg : (dictGet fs (prep t)).isSome
    · rw [if_pos hg]
      exact ih hfs hs
    · rw [if_neg hg]
      refine ih ?_ (by positivity)
      intro p hp
      rcases mem_dictInsert hp with h1 | h1
      · rw [h1]; positivity
      · exact hfs p h1

theorem getFeatures_values_pos (nw : String → String) (e : Entry) :
    ∀ p ∈ GetFeatures nw e, 0 < p.2 := by
  rw [GetFeatures]
  exact featPass_values_pos
    (featPass_values_pos
      (featPass_values_pos (baseFeatures_values_pos nw e) one_pos)
      (by
        obtain ⟨a, _, h2, _⟩ := featPass_structure (fun w => nw w)
          ((e.related.getD []).take 20) (baseFeatures nw e) 1
        rw [h2]
        positivity))
    (by
      obtain ⟨a1, _, h12, _⟩ := featPass_structure (fun w => nw w)
        ((e.related.getD []).take 20) (baseFeatures nw e) 1
      obtain ⟨a2, _, h22, _⟩ := featPass_structure
        (fun w => stripSuffixes featTranSuffixes (nw w))
        ((e.translation.getD []).take 20)
        ((featPass (fun w => nw w) ((e.related.getD []).take 20)
          (baseFeatures nw e) 1).1)
        ((featPass (fun w => nw w) ((e.related.getD []).take 20)
          (baseFeatures nw e) 1).2)
      rw [h22, h12]
      positivity)

theorem foldl_insert_keys_nodup {α : Type} {l : List (String × α)}
    {acc : List (String × α)} {f : String × α → α}
    (hacc : (acc.map Prod.fst).Nodup) :
    (((l.foldl (fun fs p => dictInsert fs p.1 (f p)) acc)).map
      Prod.fst).Nodup := by
  induction l generalizing acc with
  | nil => simpa using hacc
  | cons q rest ih =>
    simp only [List.foldl_cons]
    exact ih (dictInsert_keys_nodup hacc)

theorem featPass_keys_nodup {prep : String → String} {toks : List String}
    {fs : Features} {s : ℚ} (hfs : (fs.map Prod.fst).Nodup) :
    (((featPass prep toks fs s).1).map Prod.fst).Nodup := by
  induction toks generalizing fs s with
  | nil => simpa [featPass] using hfs
  | cons t ts ih =>
    rw [featPass]
    by_cases hg : (dictGet fs (prep t)).isSome
    · rw [if_pos hg]
      exact ih hfs
    · rw [if_neg hg]
      exact ih (dictInsert_keys_nodup hfs)

theorem getFeatures_keys_nodup (nw : String → String) (e : Entry) :
    (((GetFeatures nw e)).map Prod.fst).Nodup := by
  rw [GetFeatures]
  refine featPass_keys_nodup (featPass_keys_nodup (featPass_keys_nodup ?_))
  rw [baseFeatures]
  exact foldl_insert_keys_nodup (by simp)

theorem foldl_insert_ne_nil {α : Type} {l : List (String × α)}
    {acc : List (String × α)} {f : String × α → α} (h : acc ≠ []) :
    (l.foldl (fun fs p => dictInsert fs p.1 (f p)) acc) ≠ [] := by
  induction l generalizing acc with
  | nil => simpa using h
  | cons q rest ih =>
    simp only [List.foldl_cons]
    exact ih (dictInsert_ne_nil acc q.1 (f q))

theorem getFeatures_ne_nil (nw : String → String) (e : Entry) :
    GetFeatures nw e ≠ [] := by
  obtain ⟨a1, h11, _, _⟩ := featPass_structure (fun w => nw w)
    ((e.related.getD []).take 20) (baseFeatures nw e) 1
  obtain ⟨a2, h21, _, _⟩ := featPass_structure
    (fun w => stripSuffixes featTranSuffixes (nw w))
    ((e.translation.getD []).take 20)
    ((featPass (fun w => nw w) ((e.related.getD []).take 20)
      (baseFeatures nw e) 1).1)
    ((featPass (fun w => nw w) ((e.related.getD []).take 20)
      (baseFeatures nw e) 1).2)
  obtain ⟨a3, h31, _, _⟩ := featPass_structure (fun w => nw w)
    ((e.cooccurrence.getD []).take 20)
    ((featPass (fun w => stripSuffixes featTranSuffixes (nw w))
      ((e.translation.getD []).take 20)
      ((featPass (fun w => nw w) ((e.related.getD []).take 20)
        (baseFeatures nw e) 1).1)
      ((featPass (fun w => nw w) ((e.related.getD []).take 20)
        (baseFeatures nw e) 1).2)).1)
    ((featPass (fun w => stripSuffixes featTranSuffixes (nw w))
      ((e.translation.getD []).take 20)
      ((featPass (fun w => nw w) ((e.related.getD []).take 20)
        (baseFeatures nw e) 1).1)
      ((featPass (fun w => nw w) ((e.related.getD []).take 20)
        (baseFeatures nw e) 1).2)).2)
  have hbase : baseFeatures nw e ≠ [] := by
    rw [baseFeatures]
    exact foldl_insert_ne_nil (by simp)
  rw [GetFeatures]
  rw [h31, h21, h11]
  simp [hbase]

/-! ### C9: the single seed is returned first -/

theorem dictGet_append_none {α : Type} {a b : List (String × α)} {k : String}
    (ha : dictGet a k = none) (hb : dictGet b k = none) :
    dictGet (a ++ b) k = none := by
  induction a with
  | nil => simpa using hb
  | cons p rest ih =>
    obtain ⟨k', v'⟩ := p
    by_cases hk : k' = k
    · simp [dictGet, hk] at ha
    · simp only [dictGet, if_neg hk] at ha ⊢
      exact ih ha

theorem addFeatures_fresh {f : Features} {acc : Features} {w : ℚ}
    (hn : (f.map Prod.fst).Nodup)
    (hfresh : ∀ p ∈ f, dictGet acc p.1 = none) :
    addFeatures acc f w = acc ++ f.map (fun p => (p.1, 0 + p.2 * w)) := by
  induction f generalizing acc with
  | nil => simp [addFeatures]
  | cons q rest ih =>
    rw [addFeatures]
    simp only [List.foldl_cons]
    have hq : dictGet acc q.1 = none := hfresh q (List.mem_cons_self q rest)
    have hstep : dictAdd acc q.1 (q.2 * w) = acc ++ [(q.1, 0 + q.2 * w)] := by
      rw [dictAdd, hq]
      exact dictInsert_of_get_none _ hq
    rw [hstep]
    simp only [List.map_cons] at *
    have hn' : (rest.map Prod.fst).Nodup := (List.nodup_cons.mp hn).2
    have hq' : q.1 ∉ rest.map Prod.fst := (List.nodup_cons.mp hn).1
    have hfresh' : ∀ p ∈ rest, dictGet (acc ++ [(q.1, 0 + q.2 * w)]) p.1 =
        none := by
      intro p hp
      refine dictGet_append_none (hfresh p (List.mem_cons_of_mem q hp)) ?_
      have hne : q.1 ≠ p.1 := by
        intro he
        exact hq' (he ▸ List.mem_map_of_mem Prod.fst hp)
      simp [dictGet, hne]
    have := ih hn' hfresh'
    rw [addFeatures] at this
    rw [this, List.append_assoc]
    rfl

theorem seedFeatures_single (nw : String → String) (s : Entry) :
    seedFeaturesOf nw [s] = GetFeatures nw s := by
  rw [seedFeaturesOf, seedAgg]
  simp only [List.not_mem_nil, if_false]
  rw [seedAgg]
  rw [addFeatures_fresh (getFeatures_keys_nodup nw s)
    (fun p _ => by rfl)]
  simp [Prod.mk.eta]

theorem seed_scores_one (nw : String → String) (s : Entry) :
    GetSimilarity (seedFeaturesOf nw [s]) (GetFeatures nw s) = 1 := by
  rw [seedFeatures_single]
  exact getSimilarity_self_eq_one (getFeatures_keys_nodup nw s)
    (getFeatures_ne_nil nw s) (getFeatures_values_pos nw s)

theorem popMin_singleton (x : HeapElem) : popMin [x] = some (x, []) := rfl

theorem expandLoop_pop_first (nw : String → String) (store : Store)
    (sf : Features) (capacity : Int) (fuel : Nat) (st : EState)
    (m : HeapElem) (rest : List HeapElem)
    (hp : popMin st.seeds = some (m, rest)) :
    ∃ tail, (expandLoop nw store sf capacity (fuel + 1) st).result =
      st.result ++ m.2.2 :: tail := by
  rw [expandLoop, hp]
  obtain ⟨tail, htail⟩ := expandLoop_result_prefix nw store sf capacity fuel
    (expandStep nw store sf capacity st m.1 m.2.2 rest)
  rw [htail, expandStep_result]
  exact ⟨tail, by simp⟩

/-- C9.  A single-seed `SearchRelatedWithSeeds` call with capacity `≥ 1`
returns the seed itself first: the seed's own features score exactly `1.0`
against the aggregated seed features, the seed is pushed with discovery
index `0` before anything else, and the first pop of the main loop therefore
appends it at position `0`, which survives the final truncation. -/
theorem C9_single_seed_first (nw : String → String) (store : Store)
    (seed : Entry) (capacity : Int) (h : 1 ≤ capacity) :
    (SearchRelatedWithSeeds nw store [seed] capacity).head? = some seed ∧
    GetSimilarity (seedFeaturesOf nw [seed]) (GetFeatures nw seed) = 1 := by
  refine ⟨?_, seed_scores_one nw seed⟩
  rw [SearchRelatedWithSeeds]
  have hexp : ∃ tail,
      ExpandEntries nw store [seed] (seedFeaturesOf nw [seed])
        (max (pyIntQ (capacity * 1.2)) 100) = seed :: tail := by
    rw [ExpandEntries, ExpandEntriesState]
    have hst0 : seedPhase nw (seedFeaturesOf nw [seed]) [seed]
        initEState =
        { result := [],
          seeds := [(-(GetSimilarity (seedFeaturesOf nw [seed])
            (GetFeatures nw seed)), 0, seed)],
          numSteps := 1, checkedWords := [seed.word],
          checkedTrans := [] } := by
      simp [seedPhase, addSeed, initEState]
    rw [hst0]
    have hfuel : ([(-(GetSimilarity (seedFeaturesOf nw [seed])
        (GetFeatures nw seed)), 0, seed)] : List HeapElem).length +
        (max (pyIntQ (capacity * 1.2)) 100).toNat =
        (max (pyIntQ (capacity * 1.2)) 100).toNat + 1 := by
      simp [Nat.add_comm]
    rw [hfuel]
    obtain ⟨tail, htail⟩ := expandLoop_pop_first nw store
      (seedFeaturesOf nw [seed]) (max (pyIntQ (capacity * 1.2)) 100)
      ((max (pyIntQ (capacity * 1.2)) 100).toNat)
      { result := [],
        seeds := [(-(GetSimilarity (seedFeaturesOf nw [seed])
          (GetFeatures nw seed)), 0, seed)],
        numSteps := 1, checkedWords := [seed.word], checkedTrans := [] }
      ((-(GetSimilarity (seedFeaturesOf nw [seed])
        (GetFeatures nw seed)), 0, seed)) [] (popMin_singleton _)
    rw [htail]
    exact ⟨tail, by simp⟩
  obtain ⟨tail, htail⟩ := hexp
  rw [htail, pySlice, if_pos (by omega : (0 : Int) ≤ capacity)]
  obtain ⟨m, hm⟩ : ∃ m, capacity.toNat = m + 1 :=
    ⟨capacity.toNat - 1, by omega⟩
  rw [hm, List.take_succ_cons]
  rfl

/-- Witness for C9 at a concrete seed and capacity `1`. -/
theorem C9_single_seed_first_witness :
    (SearchRelatedWithSeeds NormalizeWord emptyStore [eC] 1).head? =
      some eC ∧
    GetSimilarity (seedFeaturesOf NormalizeWord [eC])
      (GetFeatures NormalizeWord eC) = 1 :=
  C9_single_seed_first NormalizeWord emptyStore eC 1 (by norm_num)

/-! ### C2 and C7: the visited-set invariant of the expansion loop -/

theorem fanOut_refl {capacity : Int} {st : EState} (h : WInv st) :
    FanOut capacity st st :=
  ⟨h, le_refl _, le_max_left _ _, rfl, rfl⟩

theorem fanOut_trans {capacity : Int} {s1 s2 s3 : EState}
    (h1 : FanOut capacity s1 s2) (h2 : FanOut capacity s2 s3) :
    FanOut capacity s1 s3 := by
  obtain ⟨w2, a2, b2, c2, r2⟩ := h1
  obtain ⟨w3, a3, b3, c3, r3⟩ := h2
  refine ⟨w3, le_trans a2 a3, ?_, by omega, r3.trans r2⟩
  exact le_trans b3 (max_le b2 (le_max_right _ _))

theorem fanOut_addSeed {capacity : Int} {st : EState} {e : Entry}
    (nw : String → String) (sf : Features) (hW : WInv st)
    (hmem : e.word ∉ st.checkedWords)
    (hcap : ¬((st.checkedWords.length : Int) ≥ capacity)) :
    FanOut capacity st
      (addSeed nw sf { st with checkedWords := e.word :: st.checkedWords }
        e) := by
  obtain ⟨hnd, hlen, hrnd, hsub⟩ := hW
  have hwords : heapWords (st.seeds ++
      [(-(GetSimilarity sf (GetFeatures nw e)), st.numSteps, e)]) =
      heapWords st.seeds ++ [e.word] := by
    simp [heapWords]
  have hnotin : e.word ∉ st.result.map Entry.word ++ heapWords st.seeds := by
    intro hin
    exact hmem (hsub _ hin)
  refine ⟨⟨?_, ?_, ?_, ?_⟩, ?_, ?_, ?_, rfl⟩
  · exact List.nodup_cons.mpr ⟨hmem, hnd⟩
  · simp [addSeed, hlen]
  · show (st.result.map Entry.word ++ heapWords (st.seeds ++ _)).Nodup
    rw [hwords, ← List.append_assoc]
    refine List.Nodup.append hrnd (by simp) ?_
    intro w hw hw'
    simp at hw'
    subst hw'
    exact hnotin hw
  · intro w hw
    show w ∈ e.word :: st.checkedWords
    simp only [addSeed] at hw
    rw [hwords, ← List.append_assoc] at hw
    rcases List.mem_append.mp hw with hw | hw
    · exact List.mem_cons_of_mem _ (hsub _ hw)
    · simp at hw
      simp [hw]
  · simp [addSeed]
  · show st.numSteps + 1 ≤ max st.numSteps capacity.toNat
    have : (st.numSteps : Int) < capacity := by
      rw [← hlen]
      omega
    have hc : st.numSteps + 1 ≤ capacity.toNat := by omega
    exact le_trans hc (le_max_right _ _)
  · simp [addSeed]
    omega

theorem relChildLoop_fanOut (nw : String → String) (sf : Features)
    (capacity : Int) :
    ∀ (cs : List Entry) (st : EState) (na : Nat), WInv st →
      FanOut capacity st (relChildLoop nw sf capacity cs st na).1 := by
  intro cs
  induction cs with
  | nil => intro st na hW; exact fanOut_refl hW
  | cons c cs' ih =>
    intro st na hW
    rw [relChildLoop]
    split_ifs with h1 h2
    · exact fanOut_refl hW
    · exact ih st na hW
    · have hstep := fanOut_addSeed nw sf hW h2 h1
      exact fanOut_trans hstep (ih _ _ hstep.1)

theorem tranChildLoop_fanOut (nw : String → String) (sf : Features)
    (capacity : Int) :
    ∀ (cs : List Entry) (st : EState) (na nta : Nat), WInv st →
      FanOut capacity st (tranChildLoop nw sf capacity cs st na nta).1 := by
  intro cs
  induction cs with
  | nil => intro st na nta hW; exact fanOut_refl hW
  | cons c cs' ih =>
    intro st na nta hW
    rw [tranChildLoop]
    split_ifs with h1 h2 h3
    · exact fanOut_refl hW
    · exact fanOut_refl hW
    · exact ih st na nta hW
    · have hstep := fanOut_addSeed nw sf hW h3 h1
      exact fanOut_trans hstep (ih _ _ _ hstep.1)

theorem relLoop_fanOut (nw : String → String) (store : Store)
    (sf : Features) (capacity : Int) :
    ∀ (rws : List String) (st : EState) (na : Nat), WInv st →
      FanOut capacity st (relLoop nw store sf capacity rws st na).1 := by
  intro rws
  induction rws with
  | nil => intro st na hW; exact fanOut_refl hW
  | cons rw' rws' ih =>
    intro st na hW
    rw [relLoop]
    split_ifs with h1 h2
    · exact fanOut_refl hW
    · exact ih st na hW
    · have hchild := relChildLoop_fanOut nw sf capacity
        (SearchExact nw store rw' (capacity - st.checkedWords.length))
        st na hW
      exact fanOut_trans hchild (ih _ _ hchild.1)

theorem fanOut_setTrans {capacity : Int} {st : EState} (l : List String)
    (hW : WInv st) :
    FanOut capacity st { st with checkedTrans := l } :=
  ⟨hW, le_refl _, le_max_left _ _, rfl, rfl⟩

theorem tranLoop_fanOut (nw : String → String) (store : Store)
    (sf : Features) (capacity : Int) :
    ∀ (trs : List String) (st : EState) (na : Nat), WInv st →
      FanOut capacity st (tranLoop nw store sf capacity trs st na).1 := by
  intro trs
  induction trs with
  | nil => intro st na hW; exact fanOut_refl hW
  | cons tr trs' ih =>
    intro st na hW
    rw [tranLoop]
    by_cases h1 : (st.checkedWords.length : Int) ≥ capacity
    · rw [if_pos h1]
      exact fanOut_refl hW
    · rw [if_neg h1]
      dsimp only
      by_cases h2 : stripSuffixes expandTranSuffixes2
          (stripSuffixes expandTranSuffixes1 tr) ∈ st.checkedTrans
      · rw [if_pos h2]
        exact ih st na hW
      · rw [if_neg h2]
        have hset : FanOut capacity st { st with checkedTrans := stripSuffixes expandTranSuffixes2 (stripSuffixes expandTranSuffixes1 tr) :: st.checkedTrans } :=
          ⟨hW, le_refl _, le_max_left _ _, rfl, rfl⟩
        refine fanOut_trans hset (fanOut_trans
          (tranChildLoop_fanOut nw sf capacity _ _ na 0 hset.1)
          (ih _ _ ?_))
        exact (tranChildLoop_fanOut nw sf capacity _ _ na 0 hset.1).1

theorem coocLoop_fanOut (nw : String → String) (store : Store)
    (sf : Features) (capacity : Int) :
    ∀ (cos : List String) (st : EState) (na : Nat), WInv st →
      FanOut capacity st (coocLoop nw store sf capacity cos st na).1 := by
  intro cos
  induction cos with
  | nil => intro st na hW; exact fanOut_refl hW
  | cons co cos' ih =>
    intro st na hW
    rw [coocLoop]
    split_ifs with h1 h2 h3
    · exact fanOut_refl hW
    · exact fanOut_refl hW
    · exact ih st na hW
    · have hchild := relChildLoop_fanOut nw sf capacity
        (SearchExact nw store co (capacity - st.checkedWords.length))
        st na hW
      exact fanOut_trans hchild (ih _ _ hchild.1)

theorem pop_WInv {st : EState} {m : HeapElem} {rest : List HeapElem}
    (hW : WInv st) (hp : popMin st.seeds = some (m, rest)) :
    WInv { st with result := st.result ++ [m.2.2], seeds := rest } ∧
    rest.length + 1 = st.seeds.length := by
  obtain ⟨hnd, hlen, hrnd, hsub⟩ := hW
  have hperm : st.seeds.Perm (m :: rest) := popMin_perm hp
  have hwperm : (heapWords st.seeds).Perm (m.2.2.word :: heapWords rest) := by
    have := hperm.map (fun x => x.2.2.word)
    simpa [heapWords] using this
  have hbig : (st.result.map Entry.word ++ heapWords st.seeds).Perm
      ((st.result.map Entry.word ++ [m.2.2.word]) ++ heapWords rest) := by
    refine (hwperm.append_left (st.result.map Entry.word)).trans ?_
    simp
  refine ⟨⟨hnd, hlen, ?_, ?_⟩, ?_⟩
  · show ((st.result ++ [m.2.2]).map Entry.word ++ heapWords rest).Nodup
    rw [List.map_append]
    exact hbig.nodup_iff.mp hrnd
  · intro w hw
    show w ∈ st.checkedWords
    refine hsub w ?_
    refine hbig.mem_iff.mpr ?_
    rw [List.map_append] at hw
    exact hw
  · have := hperm.length_eq
    simp at this
    omega

theorem expandStep_fanOut (nw : String → String) (store : Store)
    (sf : Features) (capacity : Int) (st : EState) (negScore : ℝ)
    (entry : Entry) (rest : List HeapElem)
    (hW : WInv { st with result := st.result ++ [entry], seeds := rest }) :
    FanOut capacity { st with result := st.result ++ [entry], seeds := rest }
      (expandStep nw store sf capacity st negScore entry rest) := by
  rw [expandStep]
  refine fanOut_trans (relLoop_fanOut nw store sf capacity _ _ _ hW)
    (fanOut_trans (tranLoop_fanOut nw store sf capacity _ _ _ ?_)
      (coocLoop_fanOut nw store sf capacity _ _ _ ?_))
  · exact (relLoop_fanOut nw store sf capacity _ _ _ hW).1
  · exact (tranLoop_fanOut nw store sf capacity _ _ _
      ((relLoop_fanOut nw store sf capacity _ _ _ hW).1)).1

theorem expandLoop_spec (nw : String → String) (store : Store)
    (sf : Features) (capacity : Int) :
    ∀ (fuel : Nat) (st : EState), WInv st →
      st.seeds.length + (capacity.toNat - st.numSteps) ≤ fuel →
      WInv (expandLoop nw store sf capacity fuel st) ∧
      (expandLoop nw store sf capacity fuel st).seeds = [] ∧
      (expandLoop nw store sf capacity fuel st).numSteps ≤
        max st.numSteps capacity.toNat := by
  intro fuel
  induction fuel with
  | zero =>
    intro st hW hb
    have hz : st.seeds.length = 0 := by omega
    rw [expandLoop]
    exact ⟨hW, List.length_eq_zero.mp hz, le_max_left _ _⟩
  | succ n ih =>
    intro st hW hb
    rw [expandLoop]
    cases hp : popMin st.seeds with
    | none => exact ⟨hW, popMin_eq_none.mp hp, le_max_left _ _⟩
    | some p =>
      obtain ⟨m, rest⟩ := p
      obtain ⟨hW1, hlen1⟩ := pop_WInv hW hp
      have hF := expandStep_fanOut nw store sf capacity st m.1 m.2.2 rest hW1
      obtain ⟨hW2, hs2a, hs2b, hs2c, _⟩ := hF
      have e1 : ({ st with result := st.result ++ [m.2.2], seeds := rest } : EState).numSteps = st.numSteps := rfl
      have e2 : ({ st with result := st.result ++ [m.2.2], seeds := rest } : EState).seeds = rest := rfl
      rw [e1] at hs2a hs2b
      rw [e2] at hs2c
      have hb2 : (expandStep nw store sf capacity st m.1 m.2.2
            rest).seeds.length +
          (capacity.toNat -
            (expandStep nw store sf capacity st m.1 m.2.2 rest).numSteps) ≤
          n := by
        rcases Nat.le_total st.numSteps capacity.toNat with hc | hc
        · rw [max_eq_right hc] at hs2b
          omega
        · rw [max_eq_left hc] at hs2b
          omega
      obtain ⟨hWo, hso, hno⟩ := ih _ hW2 hb2
      refine ⟨hWo, hso, ?_⟩
      exact le_trans hno (max_le hs2b (le_max_right _ _))

theorem addSeed_WInv (nw : String → String) (sf : Features) {st : EState}
    {e : Entry} (hW : WInv st) (hmem : e.word ∉ st.checkedWords) :
    WInv (addSeed nw sf { st with checkedWords := e.word :: st.checkedWords }
      e) := by
  obtain ⟨hnd, hlen, hrnd, hsub⟩ := hW
  have hwords : heapWords (st.seeds ++
      [(-(GetSimilarity sf (GetFeatures nw e)), st.numSteps, e)]) =
      heapWords st.seeds ++ [e.word] := by
    simp [heapWords]
  have hnotin : e.word ∉ st.result.map Entry.word ++ heapWords st.seeds := by
    intro hin
    exact hmem (hsub _ hin)
  refine ⟨?_, ?_, ?_, ?_⟩
  · exact List.nodup_cons.mpr ⟨hmem, hnd⟩
  · simp [addSeed, hlen]
  · show (st.result.map Entry.word ++ heapWords (st.seeds ++ _)).Nodup
    rw [hwords, ← List.append_assoc]
    refine List.Nodup.append hrnd (by simp) ?_
    intro w hw hw'
    simp at hw'
    subst hw'
    exact hnotin hw
  · intro w hw
    show w ∈ e.word :: st.checkedWords
    simp only [addSeed] at hw
    rw [hwords, ← List.append_assoc] at hw
    rcases List.mem_append.mp hw with hw | hw
    · exact List.mem_cons_of_mem _ (hsub _ hw)
    · simp at hw
      simp [hw]

theorem seedPhase_spec (nw : String → String) (sf : Features) :
    ∀ (seeds : List Entry) (st : EState), WInv st →
      WInv (seedPhase nw sf seeds st) ∧
      (seedPhase nw sf seeds st).result = st.result ∧
      (seedPhase nw sf seeds st).seeds.length + st.numSteps =
        st.seeds.length + (seedPhase nw sf seeds st).numSteps ∧
      st.numSteps ≤ (seedPhase nw sf seeds st).numSteps ∧
      (seedPhase nw sf seeds st).numSteps ≤ st.numSteps + seeds.length := by
  intro seeds
  induction seeds with
  | nil =>
    intro st hW
    exact ⟨hW, rfl, rfl, le_refl _, by simp [seedPhase]⟩
  | cons e es ih =>
    intro st hW
    rw [seedPhase]
    by_cases hmem : e.word ∈ st.checkedWords
    · rw [if_pos hmem]
      obtain ⟨h1, h2, h3, h4, h5⟩ := ih st hW
      exact ⟨h1, h2, h3, h4, by simp; omega⟩
    · rw [if_neg hmem]
      have hstep := addSeed_WInv nw sf hW hmem
      obtain ⟨h1, h2, h3, h4, h5⟩ := ih _ hstep
      have e1 : (addSeed nw sf { st with checkedWords := e.word :: st.checkedWords } e).numSteps = st.numSteps + 1 := rfl
      have e2 : (addSeed nw sf { st with checkedWords := e.word :: st.checkedWords } e).seeds.length = st.seeds.length + 1 := by
        simp [addSeed]
      have e3 : (addSeed nw sf { st with checkedWords := e.word :: st.checkedWords } e).result = st.result := rfl
      rw [e1] at h3 h4 h5
      rw [e2] at h3
      rw [e3] at h2
      exact ⟨h1, h2, by omega, by omega, by simp; omega⟩

/-- C7 (amended).  In `ExpandEntries`: every heap push (`AddSeed`) increments
the discovery counter, and the final counter value — the total number of
pushes — equals the number of visited headwords, which are pairwise
distinct; the total never exceeds `max(number of seed entries, capacity)`
(the seeding loop is *not* capacity-bounded, so with more distinct seeds
than capacity the pushes exceed the capacity, but the capacity bounds every
main-loop push); and the loop terminates: with the fuel chosen in the model
the queue is provably empty at exit. -/
theorem C7_push_accounting (nw : String → String) (store : Store)
    (seeds : List Entry) (sf : Features) (capacity : Int) :
    (∀ (st : EState) (e : Entry),
      (addSeed nw sf st e).numSteps = st.numSteps + 1) ∧
    (ExpandEntriesState nw store seeds sf capacity).numSteps ≤
      max seeds.length capacity.toNat ∧
    (ExpandEntriesState nw store seeds sf capacity).checkedWords.length =
      (ExpandEntriesState nw store seeds sf capacity).numSteps ∧
    (ExpandEntriesState nw store seeds sf capacity).checkedWords.Nodup ∧
    (ExpandEntriesState nw store seeds sf capacity).seeds = [] := by
  have hWinit : WInv initEState := by
    refine ⟨by simp [initEState], by simp [initEState], ?_, ?_⟩ <;>
      simp [initEState, heapWords]
  obtain ⟨hW0, _, h30, h40, h50⟩ := seedPhase_spec nw sf seeds
    initEState hWinit
  have hb : (seedPhase nw sf seeds initEState).seeds.length +
      (capacity.toNat - (seedPhase nw sf seeds initEState).numSteps) ≤
      (seedPhase nw sf seeds initEState).seeds.length + capacity.toNat := by
    omega
  obtain ⟨hWo, hso, hno⟩ := expandLoop_spec nw store sf capacity _ _ hW0 hb
  rw [ExpandEntriesState]
  refine ⟨fun _ _ => rfl, ?_, hWo.2.1, hWo.1, hso⟩
  refine le_trans hno (max_le ?_ (le_max_right _ _))
  simp [initEState] at h50
  exact le_trans h50 (le_max_left _ _)

/-- C2 (amended).  The output of `ExpandEntries` contains no two entries
with the same *raw* headword (`entry["word"]`): the visited set is keyed by
the raw headword, every push is guarded by it, and every output entry was
pushed exactly once.  (Deduplication by *normalized* headword fails — see
the counterexample — because two entries whose distinct raw headwords share
a normalized form are both admitted.)  The truncated
`SearchRelatedWithSeeds` output, a prefix of an `ExpandEntries` output,
therefore also has pairwise distinct raw headwords. -/
theorem C2_no_duplicate_raw_headwords (nw : String → String) (store : Store)
    (seeds : List Entry) (sf : Features) (capacity c2 : Int) :
    ((ExpandEntries nw store seeds sf capacity).map Entry.word).Nodup ∧
    ((SearchRelatedWithSeeds nw store seeds c2).map Entry.word).Nodup := by
  have hmain : ∀ (sf' : Features) (c' : Int),
      ((ExpandEntries nw store seeds sf' c').map Entry.word).Nodup := by
    intro sf' c'
    have hWinit : WInv initEState := by
      refine ⟨by simp [initEState], by simp [initEState], ?_, ?_⟩ <;>
        simp [initEState, heapWords]
    obtain ⟨hW0, _, _, _, _⟩ := seedPhase_spec nw sf' seeds
      initEState hWinit
    obtain ⟨hWo, hso, _⟩ := expandLoop_spec nw store sf' c'
      ((seedPhase nw sf' seeds initEState).seeds.length + c'.toNat)
      (seedPhase nw sf' seeds initEState) hW0 (by omega)
    rw [ExpandEntries, ExpandEntriesState]
    obtain ⟨_, _, hrnd, _⟩ := hWo
    rw [hso] at hrnd
    simpa [heapWords] using hrnd
  refine ⟨hmain sf capacity, ?_⟩
  rw [SearchRelatedWithSeeds]
  have hsub : (pySlice (ExpandEntries nw store seeds
      (seedFeaturesOf nw seeds) (max (pyIntQ (c2 * 1.2)) 100)) c2).Sublist
      (ExpandEntries nw store seeds (seedFeaturesOf nw seeds)
        (max (pyIntQ (c2 * 1.2)) 100)) := by
    rw [pySlice]
    split <;> exact List.take_sublist _ _
  exact List.Nodup.sublist (hsub.map Entry.word)
    (hmain (seedFeaturesOf nw seeds) (max (pyIntQ (c2 * 1.2)) 100))

/-! ### Concrete evaluations of `ExpandEntries` -/

theorem sim_singleton_self (k : String) :
    GetSimilarity [(k, 1)] [(k, 1)] = 1 := by
  have h1 : simAccum [(k, 1)] [(k, 1)] = (1, 1, 1) := by
    norm_num [simAccum, dictGet]
  simp only [GetSimilarity, h1]
  rw [if_neg (by norm_num)]
  norm_num [Real.sqrt_one]

theorem sim_singleton_other {k j : String} (h : j ≠ k) :
    GetSimilarity [(k, 1)] [(j, 1)] = 0 := by
  have h1 : simAccum [(k, 1)] [(j, 1)] = (0, 1, 0) := by
    norm_num [simAccum, dictGet, h]
  simp only [GetSimilarity, h1]
  rw [if_pos (by norm_num)]

theorem seedPhase_eval_C2 :
    seedPhase NormalizeWord [("a", 1)] [eUp, eLo] initEState =
    { result := [], seeds := [((-1 : ℝ), 0, eUp), ((-1 : ℝ), 1, eLo)],
      numSteps := 2, checkedWords := ["a", "A"], checkedTrans := [] } := by
  have hU : GetFeatures NormalizeWord eUp = [("a", 1)] := rfl
  have hL : GetFeatures NormalizeWord eLo = [("a", 1)] := rfl
  simp [seedPhase, addSeed, initEState, hU, hL, sim_singleton_self,
    show eUp.word = "A" from rfl, show eLo.word = "a" from rfl]

theorem expandStep_eval_Up : expandStep NormalizeWord emptyStore [("a", 1)]
    100
    { result := [], seeds := [((-1 : ℝ), 0, eUp), ((-1 : ℝ), 1, eLo)],
      numSteps := 2, checkedWords := ["a", "A"], checkedTrans := [] }
    (-1) eUp [((-1 : ℝ), 1, eLo)] =
    { result := [eUp], seeds := [((-1 : ℝ), 1, eLo)], numSteps := 2,
      checkedWords := ["a", "A"], checkedTrans := [] } := by
  simp [expandStep, collectRelWords, relLoop, tranLoop, coocLoop,
    show eUp.related = none from rfl, show eUp.parent = none from rfl,
    show eUp.child = none from rfl, show eUp.translation = none from rfl,
    show eUp.cooccurrence = none from rfl]

theorem expandStep_eval_Lo : expandStep NormalizeWord emptyStore [("a", 1)]
    100
    { result := [eUp], seeds := [((-1 : ℝ), 1, eLo)], numSteps := 2,
      checkedWords := ["a", "A"], checkedTrans := [] }
    (-1) eLo [] =
    { result := [eUp, eLo], seeds := [], numSteps := 2,
      checkedWords := ["a", "A"], checkedTrans := [] } := by
  simp [expandStep, collectRelWords, relLoop, tranLoop, coocLoop,
    show eLo.related = none from rfl, show eLo.parent = none from rfl,
    show eLo.child = none from rfl, show eLo.translation = none from rfl,
    show eLo.cooccurrence = none from rfl]

theorem expandEntries_eval_C2 : ExpandEntries NormalizeWord emptyStore
    [eUp, eLo] [("a", 1)] 100 = [eUp, eLo] := by
  rw [ExpandEntries, ExpandEntriesState, seedPhase_eval_C2]
  have hfuel : ({ result := [], seeds := [((-1 : ℝ), 0, eUp), ((-1 : ℝ), 1, eLo)], numSteps := 2, checkedWords := ["a", "A"], checkedTrans := [] } : EState).seeds.length + (100 : Int).toNat = 101 + 1 := by
    simp
  rw [hfuel, expandLoop]
  rw [show ({ result := [], seeds := [((-1 : ℝ), 0, eUp), ((-1 : ℝ), 1, eLo)], numSteps := 2, checkedWords := ["a", "A"], checkedTrans := [] } : EState).seeds = [((-1 : ℝ), 0, eUp), ((-1 : ℝ), 1, eLo)] from rfl]
  rw [show popMin [((-1 : ℝ), 0, eUp), ((-1 : ℝ), 1, eLo)] = some (((-1 : ℝ), 0, eUp), [((-1 : ℝ), 1, eLo)]) from by
    rw [popMin, popMin_singleton]
    dsimp only
    rw [if_pos (show heLE ((-1 : ℝ), 0, eUp) ((-1 : ℝ), 1, eLo) from
      Or.inr ⟨rfl, by norm_num⟩)]]
  dsimp only
  rw [expandStep_eval_Up]
  rw [show (101 : Nat) = 100 + 1 from rfl, expandLoop]
  rw [show ({ result := [eUp], seeds := [((-1 : ℝ), 1, eLo)], numSteps := 2, checkedWords := ["a", "A"], checkedTrans := [] } : EState).seeds = [((-1 : ℝ), 1, eLo)] from rfl, popMin_singleton]
  dsimp only
  rw [expandStep_eval_Lo]
  rw [expandLoop_empty_heap _ _ _ _ _ _ rfl]

/-- Counterexample to C2 as stated.  The expansion deduplicates by the *raw*
headword, not the normalized one: the two distinct entries `"A"` and `"a"`
both normalize to `"a"`, yet both appear in the output of `ExpandEntries`,
so a normalized headword occurs twice. -/
theorem C2_counterexample :
    ExpandEntries NormalizeWord emptyStore [eUp, eLo] [("a", 1)] 100 =
      [eUp, eLo] ∧
    NormalizeWord eUp.word = NormalizeWord eLo.word ∧
    eUp.word ≠ eLo.word ∧
    ¬ (((ExpandEntries NormalizeWord emptyStore [eUp, eLo] [("a", 1)]
        100).map (fun e => NormalizeWord e.word)).Nodup) := by
  refine ⟨expandEntries_eval_C2, rfl, by decide, ?_⟩
  rw [expandEntries_eval_C2]
  decide

theorem seedPhase_eval_C7 :
    seedPhase NormalizeWord [("c", 1)] [eC, eD] initEState =
    { result := [], seeds := [((-1 : ℝ), 0, eC), ((0 : ℝ), 1, eD)],
      numSteps := 2, checkedWords := ["d", "c"], checkedTrans := [] } := by
  have hC : GetFeatures NormalizeWord eC = [("c", 1)] := rfl
  have hD : GetFeatures NormalizeWord eD = [("d", 1)] := rfl
  simp [seedPhase, addSeed, initEState, hC, hD, sim_singleton_self,
    sim_singleton_other (show "d" ≠ "c" from by decide),
    show eC.word = "c" from rfl, show eD.word = "d" from rfl]

theorem expandStep_eval_C : expandStep NormalizeWord emptyStore [("c", 1)] 1
    { result := [], seeds := [((-1 : ℝ), 0, eC), ((0 : ℝ), 1, eD)],
      numSteps := 2, checkedWords := ["d", "c"], checkedTrans := [] }
    (-1) eC [((0 : ℝ), 1, eD)] =
    { result := [eC], seeds := [((0 : ℝ), 1, eD)], numSteps := 2,
      checkedWords := ["d", "c"], checkedTrans := [] } := by
  simp [expandStep, collectRelWords, relLoop, tranLoop, coocLoop,
    show eC.related = none from rfl, show eC.parent = none from rfl,
    show eC.child = none from rfl, show eC.translation = none from rfl,
    show eC.cooccurrence = none from rfl]

theorem expandStep_eval_D : expandStep NormalizeWord emptyStore [("c", 1)] 1
    { result := [eC], seeds := [((0 : ℝ), 1, eD)], numSteps := 2,
      checkedWords := ["d", "c"], checkedTrans := [] }
    0 eD [] =
    { result := [eC, eD], seeds := [], numSteps := 2,
      checkedWords := ["d", "c"], checkedTrans := [] } := by
  simp [expandStep, collectRelWords, relLoop, tranLoop, coocLoop,
    show eD.related = none from rfl, show eD.parent = none from rfl,
    show eD.child = none from rfl, show eD.translation = none from rfl,
    show eD.cooccurrence = none from rfl]

theorem expandState_eval_C7 : ExpandEntriesState NormalizeWord emptyStore
    [eC, eD] [("c", 1)] 1 =
    { result := [eC, eD], seeds := [], numSteps := 2,
      checkedWords := ["d", "c"], checkedTrans := [] } := by
  rw [ExpandEntriesState, seedPhase_eval_C7]
  have hfuel : ({ result := [], seeds := [((-1 : ℝ), 0, eC), ((0 : ℝ), 1, eD)], numSteps := 2, checkedWords := ["d", "c"], checkedTrans := [] } : EState).seeds.length + (1 : Int).toNat = 2 + 1 := by
    simp
  rw [hfuel, expandLoop]
  rw [show ({ result := [], seeds := [((-1 : ℝ), 0, eC), ((0 : ℝ), 1, eD)], numSteps := 2, checkedWords := ["d", "c"], checkedTrans := [] } : EState).seeds = [((-1 : ℝ), 0, eC), ((0 : ℝ), 1, eD)] from rfl]
  rw [show popMin [((-1 : ℝ), 0, eC), ((0 : ℝ), 1, eD)] = some (((-1 : ℝ), 0, eC), [((0 : ℝ), 1, eD)]) from by
    rw [popMin, popMin_singleton]
    dsimp only
    rw [if_pos (show heLE ((-1 : ℝ), 0, eC) ((0 : ℝ), 1, eD) from
      Or.inl (by norm_num))]]
  dsimp only
  rw [expandStep_eval_C]
  rw [show (2 : Nat) = 1 + 1 from rfl, expandLoop]
  rw [show ({ result := [eC], seeds := [((0 : ℝ), 1, eD)], numSteps := 2, checkedWords := ["d", "c"], checkedTrans := [] } : EState).seeds = [((0 : ℝ), 1, eD)] from rfl, popMin_singleton]
  dsimp only
  rw [expandStep_eval_D]
  rw [expandLoop_empty_heap _ _ _ _ _ _ rfl]

/-- Counterexample to C7 as stated.  `ExpandEntries` with two distinct seed
entries and capacity `1` performs two pushes (`num_steps` ends at `2`) and
returns two entries: the seeding loop is not bounded by the capacity, so the
total number of pushes can exceed it. -/
theorem C7_counterexample :
    (ExpandEntriesState NormalizeWord emptyStore [eC, eD] [("c", 1)]
      1).numSteps = 2 ∧
    (ExpandEntries NormalizeWord emptyStore [eC, eD] [("c", 1)] 1).length =
      2 ∧
    ¬ ((2 : Nat) ≤ 1) := by
  refine ⟨by rw [expandState_eval_C7], ?_, by norm_num⟩
  rw [ExpandEntries, expandState_eval_C7]
  rfl
